import Mathlib

/-!
Shallow embedding of the on-chain deposit confirmation pipeline and of the
payment settlement reconciler of the `ai-video-engine` repository.

The chain worker (`src/unnamed/part_000`) is modelled as pure state
transformers over a list-valued image of the `chain_deposits` and
`worker_state` tables; the payment service (`src/apis/server/src/store.ts`,
`paymentService` and `grantCredits`) is modelled over a list-valued image of
the `users`, `payments` and `credit_ledger` tables.  Database timestamps
(`new Date().toISOString()`) and generated row ids (`crypto.randomUUID()`)
are threaded in as explicit string parameters.  JavaScript `number` values
that the code treats as integers are modelled as `Int`/`Nat`; `bigint`
block arithmetic is modelled as `Nat`.
-/

namespace AiVideoEngine

/-- JavaScript `Number.MAX_SAFE_INTEGER` = 2^53 - 1. -/
def MAX_SAFE_INTEGER : Nat := 2 ^ 53 - 1

/-- `chain_deposit_status` enum: `'pending' | 'confirmed'`. -/
inductive DepositStatus
  | pending
  | confirmed
deriving DecidableEq, Repr

/-- A tracked ERC-20 token (`TrackedToken` in the worker). -/
structure TrackedToken where
  symbol : String
  address : String
  decimals : Nat
deriving DecidableEq, Repr

/-- One row of the `chain_deposits` table.  `id` is the PRIMARY KEY and the
pair `(txHash, logIndex)` carries a UNIQUE index
(`chain_deposits_tx_hash_log_index_unique`). -/
structure ChainDeposit where
  id : String
  chainId : Nat
  network : String
  tokenSymbol : String
  tokenAddress : String
  fromAddress : String
  toAddress : String
  txHash : String
  logIndex : Nat
  blockNumber : Nat
  amountRaw : Nat
  amountDecimal : String
  confirmations : Nat
  status : DepositStatus
  observedAt : String
  updatedAt : String
deriving DecidableEq, Repr

/-- Strip trailing `'0'` characters (the `fraction.replace(/(0+)$/, '')`
step of viem's `formatUnits`). -/
def dropTrailingZeros (s : List Char) : List Char :=
  (s.reverse.dropWhile (fun c => c = '0')).reverse

/-- viem's `formatUnits(value, decimals)` restricted to the non-negative
`uint256` values the worker feeds it: left-pad the decimal rendering to
`decimals` digits, split into integer and fraction parts, trim trailing
zeros of the fraction. -/
def formatUnits (value : Nat) (decimals : Nat) : String :=
  let display := toString value
  let padded :=
    if display.length < decimals then
      String.mk (List.replicate (decimals - display.length) '0') ++ display
    else display
  let integer := padded.take (padded.length - decimals)
  let fraction := dropTrailingZeros ((padded.drop (padded.length - decimals)).toList)
  (if integer = "" then "0" else integer)
    ++ (if fraction = [] then "" else "." ++ String.mk fraction)

/-- The worker configuration surface used by the scan/confirmation logic
(`config` in `src/unnamed/part_001`).  `minConfirmations` comes from a
JavaScript `Number`, hence `Int`. -/
structure WorkerConfig where
  chainId : Nat
  minConfirmations : Int
  startBlock : Option Nat
deriving Repr

/-- `upsertDeposit` line 68: `input.latestBlock >= input.blockNumber ?
input.latestBlock - input.blockNumber + 1n : 0n`. -/
def confirmationsBigInt (latestBlock blockNumber : Nat) : Nat :=
  if blockNumber ≤ latestBlock then latestBlock - blockNumber + 1 else 0

/-- `upsertDeposit` line 69: clamp to `Number.MAX_SAFE_INTEGER` before the
`Number(...)` conversion (which is then exact). -/
def clampToSafeNumber (n : Nat) : Nat :=
  if n > MAX_SAFE_INTEGER then MAX_SAFE_INTEGER else n

/-- The confirmation count `upsertDeposit` stores. -/
def upsertConf (latestBlock blockNumber : Nat) : Nat :=
  clampToSafeNumber (confirmationsBigInt latestBlock blockNumber)

/-- `confirmations >= config.minConfirmations ? "confirmed" : "pending"`. -/
def statusFor (cfg : WorkerConfig) (confirmations : Nat) : DepositStatus :=
  if cfg.minConfirmations ≤ (confirmations : Int) then .confirmed else .pending

/-- The argument record of `upsertDeposit`. -/
structure UpsertInput where
  token : TrackedToken
  txHash : String
  logIndex : Nat
  blockNumber : Nat
  fromAddress : String
  toAddress : String
  amountRaw : Nat
  latestBlock : Nat
deriving DecidableEq, Repr

/-- Conflict test for the `(txHash, logIndex)` UNIQUE index. -/
def depositKeyEq (txHash : String) (logIndex : Nat) (d : ChainDeposit) : Bool :=
  d.txHash == txHash && d.logIndex == logIndex

/-- The fresh row `upsertDeposit` inserts when no `(txHash, logIndex)`
conflict exists. -/
def freshDepositRow (cfg : WorkerConfig) (i : UpsertInput) (now : String) : ChainDeposit :=
  { id := i.txHash ++ ":" ++ toString i.logIndex
    chainId := cfg.chainId
    network := "POLYGON"
    tokenSymbol := i.token.symbol
    tokenAddress := i.token.address
    fromAddress := i.fromAddress
    toAddress := i.toAddress
    txHash := i.txHash
    logIndex := i.logIndex
    blockNumber := i.blockNumber
    amountRaw := i.amountRaw
    amountDecimal := formatUnits i.amountRaw i.token.decimals
    confirmations := upsertConf i.latestBlock i.blockNumber
    status := statusFor cfg (upsertConf i.latestBlock i.blockNumber)
    observedAt := now
    updatedAt := now }

/-- `upsertDeposit`: `INSERT ... ON CONFLICT (tx_hash, log_index) DO UPDATE
SET confirmations, status, updated_at`.  On conflict only those three
columns of the conflicting row mutate; otherwise the fresh row is
appended. -/
def upsertDeposit (cfg : WorkerConfig) (i : UpsertInput) (now : String)
    (table : List ChainDeposit) : List ChainDeposit :=
  if table.any (depositKeyEq i.txHash i.logIndex) then
    table.map fun d =>
      if depositKeyEq i.txHash i.logIndex d then
        { d with
          confirmations := upsertConf i.latestBlock i.blockNumber
          status := statusFor cfg (upsertConf i.latestBlock i.blockNumber)
          updatedAt := now }
      else d
  else
    table ++ [freshDepositRow cfg i now]

/-- Selection of `refreshPendingConfirmations`:
`status = 'pending' AND block_number <= latestBlock`. -/
def refreshSelect (latestBlock : Nat) (d : ChainDeposit) : Bool :=
  d.status == .pending && decide (d.blockNumber ≤ latestBlock)

/-- `refreshPendingConfirmations` line 112:
`Number(latestBlock - blockNumber + 1n)` — note: no clamp to
`MAX_SAFE_INTEGER` on this path; the selection guarantees
`blockNumber ≤ latestBlock`, so the subtraction is exact. -/
def refreshConf (latestBlock : Nat) (d : ChainDeposit) : Nat :=
  latestBlock - d.blockNumber + 1

/-- The skip check of the refresh loop: `confirmations ===
pendingDeposit.confirmations && nextStatus === pendingDeposit.status`. -/
def refreshSkip (cfg : WorkerConfig) (latestBlock : Nat) (d : ChainDeposit) : Bool :=
  refreshConf latestBlock d == d.confirmations
    && statusFor cfg (refreshConf latestBlock d) == d.status

/-- `UPDATE chain_deposits SET confirmations, status, updated_at WHERE id =
pendingDeposit.id`. -/
def updateDepositById (rowId : String) (conf : Nat) (st : DepositStatus) (now : String)
    (table : List ChainDeposit) : List ChainDeposit :=
  table.map fun d =>
    if d.id == rowId then { d with confirmations := conf, status := st, updatedAt := now }
    else d

/-- The list of row updates one `refreshPendingConfirmations` call issues:
one `UPDATE ... WHERE id = ...` per selected row that fails the skip
check, in table order. -/
def refreshRowOps (cfg : WorkerConfig) (latestBlock : Nat) (now : String)
    (table : List ChainDeposit) : List (List ChainDeposit → List ChainDeposit) :=
  (table.filter (refreshSelect latestBlock)).filterMap fun d =>
    if refreshSkip cfg latestBlock d then none
    else some (updateDepositById d.id (refreshConf latestBlock d)
      (statusFor cfg (refreshConf latestBlock d)) now)

/-- `refreshPendingConfirmations latestBlock`: select the pending rows with
`block_number ≤ latestBlock` (a snapshot), then run the per-row updates in
order. -/
def refreshPendingConfirmations (cfg : WorkerConfig) (latestBlock : Nat) (now : String)
    (table : List ChainDeposit) : List ChainDeposit :=
  (refreshRowOps cfg latestBlock now table).foldl (fun t f => f t) table

/-- A decoded `Transfer` log as the worker reads it
(`transactionHash, logIndex, blockNumber, args.from, args.to, args.value`). -/
structure TransferLog where
  transactionHash : String
  logIndex : Nat
  blockNumber : Nat
  fromAddress : String
  toAddress : String
  value : Nat
deriving DecidableEq, Repr

/-- The chain RPC collaborator as seen by one poll cycle:
`client.getBlockNumber()` and `client.getLogs(token, fromBlock, toBlock)`
(the remote node performs the range and receiver filtering). -/
structure RpcView where
  latestBlock : Nat
  getLogs : TrackedToken → Nat → Nat → List TransferLog

/-- The durable state a poll cycle mutates: the worker cursor row and the
`chain_deposits` table. -/
structure WorkerState where
  cursor : Option Nat
  deposits : List ChainDeposit
deriving Repr

/-- The `upsertDeposit` argument built from one log inside the token loop of
`pollOnce`. -/
def logToUpsertInput (token : TrackedToken) (latestBlock : Nat) (log : TransferLog) :
    UpsertInput :=
  { token := token
    txHash := log.transactionHash
    logIndex := log.logIndex
    blockNumber := log.blockNumber
    fromAddress := log.fromAddress
    toAddress := log.toAddress
    amountRaw := log.value
    latestBlock := latestBlock }

/-- The full sequence of `upsertDeposit` arguments of one scan: outer loop
over `trackedTokens`, inner loop over that token's logs in
`[fromBlock, latestBlock]`. -/
def scanInputs (tokens : List TrackedToken) (rpc : RpcView) (fromBlock : Nat) :
    List UpsertInput :=
  tokens.flatMap fun token =>
    (rpc.getLogs token fromBlock rpc.latestBlock).map
      (logToUpsertInput token rpc.latestBlock)

/-- `fromBlock` resolution of `pollOnce` (line 132):
`cursor + 1` if a cursor exists, else `config.startBlock ?? latestBlock`. -/
def resolveFromBlock (cfg : WorkerConfig) (latestBlock : Nat) (cursor : Option Nat) : Nat :=
  match cursor with
  | some c => c + 1
  | none => cfg.startBlock.getD latestBlock

/-- The `(txHash, logIndex)` identity carried by an upsert argument. -/
def inputKey (i : UpsertInput) : String × Nat :=
  (i.txHash, i.logIndex)

/-- One batch of transfer logs pushed through the scanner's upsert step in
order (`for (const log of logs) await upsertDeposit(...)`). -/
def upsertBatch (cfg : WorkerConfig) (now : String) (inputs : List UpsertInput)
    (table : List ChainDeposit) : List ChainDeposit :=
  inputs.foldl (fun t i => upsertDeposit cfg i now t) table

/-- Lift a deposit-table mutation to the worker state. -/
def liftDep (f : List ChainDeposit → List ChainDeposit) : WorkerState → WorkerState :=
  fun s => { s with deposits := f s.deposits }

/-- The cursor upsert `setCursorBlock(latestBlock)`. -/
def setCursorWrite (latestBlock : Nat) : WorkerState → WorkerState :=
  fun s => { s with cursor := some latestBlock }

/-- The ordered list of durable writes one `pollOnce` call issues, starting
from state `s`: either (early branch, `fromBlock > latestBlock`) just the
reconciliation-sweep row updates, or the per-log upserts, then the cursor
write, then the sweep's row updates (the sweep selects from the
post-upsert table).  A cycle that throws at some point has executed a
prefix of this list. -/
def pollOnceWrites (cfg : WorkerConfig) (tokens : List TrackedToken) (rpc : RpcView)
    (now : String) (s : WorkerState) : List (WorkerState → WorkerState) :=
  let latestBlock := rpc.latestBlock
  let fromBlock := resolveFromBlock cfg latestBlock s.cursor
  if latestBlock < fromBlock then
    (refreshRowOps cfg latestBlock now s.deposits).map liftDep
  else
    let inputs := scanInputs tokens rpc fromBlock
    let afterUpserts := upsertBatch cfg now inputs s.deposits
    inputs.map (fun i => liftDep (upsertDeposit cfg i now))
      ++ [setCursorWrite latestBlock]
      ++ (refreshRowOps cfg latestBlock now afterUpserts).map liftDep

/-- Apply a list of writes in order. -/
def applyWrites (s : WorkerState) (ws : List (WorkerState → WorkerState)) : WorkerState :=
  ws.foldl (fun st f => f st) s

/-- The state after the first `k` durable writes of a cycle — the state the
store is left in when the cycle throws right after write `k`. -/
def pollOnceUpTo (cfg : WorkerConfig) (tokens : List TrackedToken) (rpc : RpcView)
    (now : String) (s : WorkerState) (k : Nat) : WorkerState :=
  applyWrites s ((pollOnceWrites cfg tokens rpc now s).take k)

/-- A complete successful `pollOnce` call. -/
def pollOnce (cfg : WorkerConfig) (tokens : List TrackedToken) (rpc : RpcView)
    (now : String) (s : WorkerState) : WorkerState :=
  applyWrites s (pollOnceWrites cfg tokens rpc now s)

/-- One deposit-table operation of the worker, for reasoning about
arbitrary interleavings of first observations and reconciliation
sweeps. -/
inductive ChainOp
  | upsert (i : UpsertInput) (now : String)
  | refresh (latestBlock : Nat) (now : String)

/-- Apply one deposit-table operation. -/
def applyChainOp (cfg : WorkerConfig) (table : List ChainDeposit) : ChainOp → List ChainDeposit
  | .upsert i now => upsertDeposit cfg i now table
  | .refresh latestBlock now => refreshPendingConfirmations cfg latestBlock now table

/-- Apply a sequence of deposit-table operations in order. -/
def applyChainOps (cfg : WorkerConfig) (table : List ChainDeposit) (ops : List ChainOp) :
    List ChainDeposit :=
  ops.foldl (applyChainOp cfg) table

/-- The head (`latestBlock`) an operation evaluates confirmations against. -/
def ChainOp.head : ChainOp → Nat
  | .upsert i _ => i.latestBlock
  | .refresh latestBlock _ => latestBlock

/-- `payment_status` enum: `'pending' | 'succeeded' | 'failed'`. -/
inductive PaymentStatus
  | pending
  | succeeded
  | failed
deriving DecidableEq, Repr

/-- One row of the `users` table (fields the payment flow touches). -/
structure User where
  id : String
  name : String
  email : String
  passwordHash : String
  apiCredits : Int
  createdAt : String
  updatedAt : String
deriving DecidableEq, Repr

/-- One row of the append-only `credit_ledger` table. -/
structure LedgerEntry where
  id : String
  userId : String
  deltaCredits : Int
  balanceAfter : Int
  reason : String
  referenceId : Option String
  metadataJson : Option String
  createdAt : String
deriving DecidableEq, Repr

/-- One row of the `payments` table.  `id` is the PRIMARY KEY and
`providerPaymentId` carries the UNIQUE index
`payments_provider_payment_unique`. -/
structure Payment where
  id : String
  userId : String
  provider : String
  providerPaymentId : String
  status : PaymentStatus
  amountMinor : Int
  currency : String
  creditsPurchased : Int
  rawPayloadJson : String
  createdAt : String
  updatedAt : String
deriving DecidableEq, Repr

/-- The slice of the backing store the payment service reads and writes. -/
structure PayState where
  users : List User
  payments : List Payment
  ledger : List LedgerEntry
deriving DecidableEq, Repr

/-- The environment values the USDT webhook settlement consults. -/
structure PayEnv where
  usdtConfirmationsRequired : Int
deriving Repr

/-- The argument record of `grantCredits`. -/
structure GrantInput where
  userId : String
  deltaCredits : Int
  reason : String
  referenceId : Option String
  metadataJson : Option String
deriving DecidableEq, Repr

/-- The credited user row: `apiCredits = apiCredits + delta`,
`updatedAt = now`. -/
def bumpUser (delta : Int) (now : String) (u : User) : User :=
  { u with apiCredits := u.apiCredits + delta, updatedAt := now }

/-- First statement of `grantCredits`: `UPDATE users SET api_credits =
api_credits + delta, updated_at = now WHERE id = userId RETURNING *`.
Returns the updated state together with the returned row (`none` when no
row matched, in which case `grantCredits` throws before any further
write). -/
def grantCreditsUpdate (userId : String) (delta : Int) (now : String) (s : PayState) :
    PayState × Option User :=
  match s.users.find? (fun u => u.id == userId) with
  | none => (s, none)
  | some u =>
    ({ s with users := s.users.map fun v => if v.id == userId then bumpUser delta now v else v },
      some (bumpUser delta now u))

/-- Second statement of `grantCredits`: `INSERT INTO credit_ledger ...`
with `balance_after` taken from the row the update returned. -/
def grantCreditsInsert (g : GrantInput) (entryId now : String) (balanceAfter : Int)
    (s : PayState) : PayState :=
  { s with
    ledger := s.ledger ++
      [{ id := entryId
         userId := g.userId
         deltaCredits := g.deltaCredits
         balanceAfter := balanceAfter
         reason := g.reason
         referenceId := g.referenceId
         metadataJson := g.metadataJson
         createdAt := now }] }

/-- `grantCredits`: the two statements run in sequence (the source wraps
them in no transaction).  The boolean is `false` when the call threw
`"User not found while adjusting credits."`. -/
def grantCredits (g : GrantInput) (entryId now : String) (s : PayState) : PayState × Bool :=
  match grantCreditsUpdate g.userId g.deltaCredits now s with
  | (s1, none) => (s1, false)
  | (s1, some u) => (grantCreditsInsert g entryId now u.apiCredits s1, true)

/-- JavaScript truthiness of an optional string (`!userId` fails for both
a missing and an empty metadata value). -/
def jsTruthy (s : Option String) : Bool :=
  match s with
  | none => false
  | some v => v != ""

/-- `JSON.stringify({ sessionId })`. -/
def sessionMetaJson (sessionId : String) : String :=
  "\x7b\"sessionId\":\"" ++ sessionId ++ "\"\x7d"

/-- `JSON.stringify({ paymentIntentId })`. -/
def intentMetaJson (paymentIntentId : String) : String :=
  "\x7b\"paymentIntentId\":\"" ++ paymentIntentId ++ "\"\x7d"

/-- The Stripe events `handleStripeEvent` reacts to.  `creditsToBuy` is the
already-parsed `Number(metadata.creditsToBuy ?? "0")` (`none` encodes a
non-finite parse, which the guard rejects); `rawJson` stands for the
`JSON.stringify` snapshot of the provider object. -/
inductive StripeEvent
  | checkoutSessionCompleted (sessionId : String) (metaUserId : Option String)
      (creditsToBuy : Option Int) (amountTotal : Option Int) (currency : Option String)
      (rawJson : String)
  | paymentIntentSucceeded (intentId : String) (metaUserId : Option String)
      (creditsToBuy : Option Int) (amountReceived : Int) (amount : Int) (currency : String)
      (rawJson : String)
  | otherEvent

/-- `paymentService.handleStripeEvent`.  `freshPayId`/`entryId` are the
`pay_...`/`cred_...` ids generated for the inserted rows.  The boolean is
`false` when `grantCredits` threw (the payment insert has already been
applied at that point). -/
def handleStripeEvent (e : StripeEvent) (freshPayId entryId now : String) (s : PayState) :
    PayState × Bool :=
  match e with
  | .checkoutSessionCompleted sessionId metaUserId creditsToBuy amountTotal currency rawJson =>
    match metaUserId, creditsToBuy with
    | some userId, some credits =>
      if userId = "" ∨ credits ≤ 0 then (s, true)
      else
        let providerPaymentId := "stripe_" ++ sessionId
        match s.payments.find? (fun p => p.providerPaymentId == providerPaymentId) with
        | some _ => (s, true)
        | none =>
          let s1 := { s with payments := s.payments ++
            [{ id := freshPayId
               userId := userId
               provider := "stripe"
               providerPaymentId := providerPaymentId
               status := .succeeded
               amountMinor := amountTotal.getD 0
               currency := currency.getD "usd"
               creditsPurchased := credits
               rawPayloadJson := rawJson
               createdAt := now
               updatedAt := now }] }
          grantCredits
            { userId := userId
              deltaCredits := credits
              reason := "payment_stripe_succeeded"
              referenceId := some providerPaymentId
              metadataJson := some (sessionMetaJson sessionId) }
            entryId now s1
    | _, _ => (s, true)
  | .paymentIntentSucceeded intentId metaUserId creditsToBuy amountReceived amount currency rawJson =>
    match metaUserId, creditsToBuy with
    | some userId, some credits =>
      if userId = "" ∨ credits ≤ 0 then (s, true)
      else
        let providerPaymentId := "stripe_pi_" ++ intentId
        match s.payments.find? (fun p => p.providerPaymentId == providerPaymentId) with
        | some _ => (s, true)
        | none =>
          let s1 := { s with payments := s.payments ++
            [{ id := freshPayId
               userId := userId
               provider := "stripe"
               providerPaymentId := providerPaymentId
               status := .succeeded
               amountMinor := if amountReceived = 0 then amount else amountReceived
               currency := currency
               creditsPurchased := credits
               rawPayloadJson := rawJson
               createdAt := now
               updatedAt := now }] }
          grantCredits
            { userId := userId
              deltaCredits := credits
              reason := "payment_stripe_applepay_succeeded"
              referenceId := some providerPaymentId
              metadataJson := some (intentMetaJson intentId) }
            entryId now s1
    | _, _ => (s, true)
  | .otherEvent => (s, true)

/-- The `status` field of an inbound stablecoin webhook payload. -/
inductive UsdtStatus
  | pending
  | confirmed
  | failed
deriving DecidableEq, Repr

/-- Render a webhook status the way `JSON.stringify` does. -/
def UsdtStatus.str : UsdtStatus → String
  | .pending => "pending"
  | .confirmed => "confirmed"
  | .failed => "failed"

/-- The body of a verified stablecoin webhook. -/
structure UsdtPayload where
  transactionId : String
  userId : String
  amountMinor : Int
  currency : String
  network : String
  status : UsdtStatus
  confirmations : Int
deriving DecidableEq, Repr

/-- `JSON.stringify(payload)` for a stablecoin webhook body (keys in
declaration order). -/
def usdtPayloadJson (p : UsdtPayload) : String :=
  "\x7b\"transactionId\":\"" ++ p.transactionId
    ++ "\",\"userId\":\"" ++ p.userId
    ++ "\",\"amountMinor\":" ++ toString p.amountMinor
    ++ ",\"currency\":\"" ++ p.currency
    ++ "\",\"network\":\"" ++ p.network
    ++ "\",\"status\":\"" ++ p.status.str
    ++ "\",\"confirmations\":" ++ toString p.confirmations
    ++ "\x7d"

/-- `derivedCredits = Math.floor(payload.amountMinor / 100)`. -/
def derivedCredits (p : UsdtPayload) : Int :=
  Int.fdiv p.amountMinor 100

/-- `isPaymentSettled = payload.status === "confirmed" &&
payload.confirmations >= env.usdtConfirmationsRequired`. -/
def isPaymentSettled (env : PayEnv) (p : UsdtPayload) : Bool :=
  p.status == .confirmed && decide (env.usdtConfirmationsRequired ≤ p.confirmations)

/-- `paymentStatus = isPaymentSettled ? "succeeded" : payload.status ===
"failed" ? "failed" : "pending"`. -/
def usdtPaymentStatus (env : PayEnv) (p : UsdtPayload) : PaymentStatus :=
  if isPaymentSettled env p then .succeeded
  else if p.status == .failed then .failed
  else .pending

/-- `paymentService.handleUsdtPayment`.  When a row with the canonical id
`usdt_<transactionId>` already exists, only its `status`,
`raw_payload_json` and `updated_at` columns are updated and the handler
returns; otherwise a fresh row is inserted and, when settled with positive
derived credits, `grantCredits` runs.  The boolean is `false` when
`grantCredits` threw. -/
def handleUsdtPayment (env : PayEnv) (p : UsdtPayload) (freshPayId entryId now : String)
    (s : PayState) : PayState × Bool :=
  let providerPaymentId := "usdt_" ++ p.transactionId
  match s.payments.find? (fun q => q.providerPaymentId == providerPaymentId) with
  | some existing =>
    ({ s with payments := s.payments.map fun q =>
        if q.id == existing.id then
          { q with
            status := usdtPaymentStatus env p
            rawPayloadJson := usdtPayloadJson p
            updatedAt := now }
        else q },
      true)
  | none =>
    let s1 := { s with payments := s.payments ++
      [{ id := freshPayId
         userId := p.userId
         provider := "usdt"
         providerPaymentId := providerPaymentId
         status := usdtPaymentStatus env p
         amountMinor := p.amountMinor
         currency := p.currency
         creditsPurchased := derivedCredits p
         rawPayloadJson := usdtPayloadJson p
         createdAt := now
         updatedAt := now }] }
    if isPaymentSettled env p ∧ 0 < derivedCredits p then
      grantCredits
        { userId := p.userId
          deltaCredits := derivedCredits p
          reason := "payment_usdt_confirmed"
          referenceId := some providerPaymentId
          metadataJson := some (usdtPayloadJson p) }
        entryId now s1
    else (s1, true)

/-- One inbound settlement event processed sequentially (an at-least-once
delivery step through `handleStripeEvent` or `handleUsdtPayment`). -/
inductive PayOp
  | stripe (e : StripeEvent) (freshPayId entryId now : String)
  | usdt (p : UsdtPayload) (freshPayId entryId now : String)

/-- Apply one settlement event (the store state it leaves behind, whether
or not the handler threw). -/
def applyPayOp (env : PayEnv) (s : PayState) : PayOp → PayState
  | .stripe e freshPayId entryId now => (handleStripeEvent e freshPayId entryId now s).1
  | .usdt p freshPayId entryId now => (handleUsdtPayment env p freshPayId entryId now s).1

/-- Apply a sequence of settlement events in order. -/
def applyPayOps (env : PayEnv) (s : PayState) (ops : List PayOp) : PayState :=
  ops.foldl (applyPayOp env) s

/-- Number of ledger entries tagged with reference id `r`. -/
def ledgerRefCount (s : PayState) (r : String) : Nat :=
  s.ledger.countP fun e => e.referenceId == some r

/-- Number of payment rows whose canonical provider payment id is `r`. -/
def paymentRefCount (s : PayState) (r : String) : Nat :=
  s.payments.countP fun p => p.providerPaymentId == r

/-- Dedup invariant of the call sites: every reference id has at most one
payment row, and no more ledger entries than payment rows. -/
def DedupInv (s : PayState) : Prop :=
  ∀ r : String, ledgerRefCount s r ≤ paymentRefCount s r ∧ paymentRefCount s r ≤ 1

/-- Sum of the signed ledger deltas recorded for one user. -/
def ledgerUserSum (s : PayState) (userId : String) : Int :=
  ((s.ledger.filter fun e => e.userId == userId).map LedgerEntry.deltaCredits).sum

/-- The in-place update `handleUsdtPayment` applies to an existing payment
row. -/
def usdtStatusPatch (env : PayEnv) (p : UsdtPayload) (now : String) (q : Payment) : Payment :=
  { q with
    status := usdtPaymentStatus env p
    rawPayloadJson := usdtPayloadJson p
    updatedAt := now }

/-- The `(txHash, logIndex)` identity of a deposit row. -/
def depositKey (d : ChainDeposit) : String × Nat :=
  (d.txHash, d.logIndex)

/-- Row-level effect of one reconciliation sweep on a deposit row: selected
rows are re-evaluated against `latestBlock` (with the unchanged-value skip),
unselected rows are untouched. -/
def refreshRowFn (cfg : WorkerConfig) (latestBlock : Nat) (now : String)
    (d : ChainDeposit) : ChainDeposit :=
  if refreshSelect latestBlock d then
    if refreshSkip cfg latestBlock d then d
    else
      { d with
        confirmations := refreshConf latestBlock d
        status := statusFor cfg (refreshConf latestBlock d)
        updatedAt := now }
  else d

/-- Erase the one volatile column (`updated_at`) of a deposit row. -/
def stripUpdatedAt (d : ChainDeposit) : ChainDeposit :=
  { d with updatedAt := "" }

/-- Order on optional cursor heights: any stored value on the left forces a
stored value at least as large on the right. -/
def cursorLe (a b : Option Nat) : Prop :=
  ∀ x, a = some x → ∃ y, b = some y ∧ x ≤ y

/-- Every confirmed row already has enough confirmations when re-evaluated
against head `H` (the invariant the worker maintains while heads are
non-decreasing). -/
def ConfirmedHeadInv (cfg : WorkerConfig) (H : Nat) (table : List ChainDeposit) : Prop :=
  ∀ d ∈ table, d.status = .confirmed →
    cfg.minConfirmations ≤ (confirmationsBigInt H d.blockNumber : Int)

/-- The heads supplied to a sequence of deposit-table operations never
decrease, starting from `H`. -/
def HeadsMono : Nat → List ChainOp → Prop
  | _, [] => True
  | H, op :: ops => H ≤ op.head ∧ HeadsMono op.head ops

/-- A `(txHash, logIndex)` identity always carries the same block number
(`B` names it), as on a real chain. -/
def ChainOp.blockConsistent (B : String × Nat → Nat) : ChainOp → Prop
  | .upsert i _ => i.blockNumber = B (i.txHash, i.logIndex)
  | .refresh _ _ => True

/-! ### Concrete fixtures used by counterexamples and witnesses -/

/-- The worker configuration with the default `MIN_CONFIRMATIONS = 50`. -/
def cfgFix : WorkerConfig :=
  { chainId := 137, minConfirmations := 50, startBlock := none }

/-- A tracked token fixture. -/
def tokFix : TrackedToken :=
  { symbol := "USDT", address := "0xtoken", decimals := 6 }

/-- An `upsertDeposit` argument for the fixed transfer `(0xabc, 0)` observed
at `blockNumber` while the node reports head `latestBlock`. -/
def mkUpsertInput (blockNumber latestBlock : Nat) : UpsertInput :=
  { token := tokFix
    txHash := "0xabc"
    logIndex := 0
    blockNumber := blockNumber
    fromAddress := "0xsender"
    toAddress := "0xreceiver"
    amountRaw := 1500000
    latestBlock := latestBlock }

/-- A pending deposit row observed at block 1 with head 1. -/
def pendingRow1 : ChainDeposit := freshDepositRow cfgFix (mkUpsertInput 1 1) "t0"

/-- A pending deposit row observed at block 5 with head 5. -/
def pendingRow5 : ChainDeposit := freshDepositRow cfgFix (mkUpsertInput 5 5) "t0"

/-- A user fixture with zero credits. -/
def userFix : User :=
  { id := "usr_1", name := "Ann", email := "ann@example.com", passwordHash := "h"
    apiCredits := 0, createdAt := "t0", updatedAt := "t0" }

/-- The payment environment with `USDT_CONFIRMATIONS_REQUIRED = 2`. -/
def envFix : PayEnv := { usdtConfirmationsRequired := 2 }

/-- A stablecoin webhook body fixture for transaction `tx1`, 500 minor
units. -/
def usdtPayloadFix (st : UsdtStatus) (confs : Int) : UsdtPayload :=
  { transactionId := "tx1", userId := "usr_1", amountMinor := 500, currency := "usd"
    network := "polygon", status := st, confirmations := confs }

/-- A previously settled payment row for `usdt_tx1`. -/
def payRowFix : Payment :=
  { id := "pay_1", userId := "usr_1", provider := "usdt", providerPaymentId := "usdt_tx1"
    status := .succeeded, amountMinor := 500, currency := "usd", creditsPurchased := 5
    rawPayloadJson := usdtPayloadJson (usdtPayloadFix .confirmed 5)
    createdAt := "t1", updatedAt := "t1" }

/-- What `handleUsdtPayment` does when the canonical id is already
recorded: users and ledger untouched, and the payments table is the old
table with only the found row's `status`/`rawPayloadJson`/`updatedAt`
rewritten. -/
def usdtExistingFrame (env : PayEnv) (p : UsdtPayload) (now : String)
    (s s' : PayState) (existing : Payment) : Prop :=
  s'.users = s.users
  ∧ s'.ledger = s.ledger
  ∧ s'.payments = s.payments.map
      (fun q => if q.id == existing.id then usdtStatusPatch env p now q else q)
  ∧ s'.payments.length = s.payments.length

/-- What a completed `grantCredits` call does when the user row exists:
returns success, leaves payments alone, appends exactly one ledger entry
whose `balanceAfter` is the incremented balance, bumps exactly the rows
with the user's id, and shifts the user's ledger-delta sum by exactly the
granted delta. -/
def grantSuccessConcl (g : GrantInput) (entryId now : String) (s : PayState) (u : User) :
    Prop :=
  let r := grantCredits g entryId now s
  r.2 = true
  ∧ r.1.payments = s.payments
  ∧ r.1.ledger = s.ledger ++
      [{ id := entryId
         userId := g.userId
         deltaCredits := g.deltaCredits
         balanceAfter := u.apiCredits + g.deltaCredits
         reason := g.reason
         referenceId := g.referenceId
         metadataJson := g.metadataJson
         createdAt := now }]
  ∧ r.1.users = s.users.map (fun v => if v.id == g.userId then bumpUser g.deltaCredits now v else v)
  ∧ ledgerUserSum r.1 g.userId = ledgerUserSum s g.userId + g.deltaCredits

/-- A settled webhook whose amount derives zero credits. -/
def usdtSmallConfirmedFix : UsdtPayload :=
  { transactionId := "tx2", userId := "usr_1", amountMinor := 50, currency := "usd"
    network := "polygon", status := .confirmed, confirmations := 5 }

/-- The exact condition under which `handleUsdtPayment` reaches
`grantCredits` and the grant completes: settled payload, no existing row
for the canonical id, positive derived credits, and an existing user
row. -/
def usdtGrantCond (env : PayEnv) (p : UsdtPayload) (s : PayState) : Prop :=
  isPaymentSettled env p = true
  ∧ s.payments.find? (fun q => q.providerPaymentId == ("usdt_" ++ p.transactionId)) = none
  ∧ 0 < derivedCredits p
  ∧ (s.users.find? (fun v => v.id == p.userId)).isSome = true

/-- Full settlement characterization of one `handleUsdtPayment` call:
a ledger entry appears exactly under `usdtGrantCond`, any appended entry
carries the derived amount and the canonical reference id, the stored
payment row always carries the computed `paymentStatus`, and that status
is `succeeded` exactly when the payload is settled (`failed`/`pending`
otherwise). -/
def usdtGrantConcl (env : PayEnv) (p : UsdtPayload) (freshPayId entryId now : String)
    (s : PayState) : Prop :=
  let s' := (handleUsdtPayment env p freshPayId entryId now s).1
  let pid := "usdt_" ++ p.transactionId
  ((s'.ledger ≠ s.ledger) ↔ usdtGrantCond env p s)
  ∧ (s'.ledger = s.ledger ∨ ∃ e, s'.ledger = s.ledger ++ [e]
      ∧ e.deltaCredits = derivedCredits p ∧ e.referenceId = some pid
      ∧ e.reason = "payment_usdt_confirmed")
  ∧ (∃ q ∈ s'.payments, q.providerPaymentId = pid)
  ∧ (∀ q ∈ s'.payments, q.providerPaymentId = pid → q.status = usdtPaymentStatus env p)
  ∧ (usdtPaymentStatus env p = .succeeded ↔ isPaymentSettled env p = true)
  ∧ (isPaymentSettled env p = false →
      usdtPaymentStatus env p = if p.status = .failed then .failed else .pending)
  ∧ (isPaymentSettled env p = true ↔
      (p.status = .confirmed ∧ env.usdtConfirmationsRequired ≤ p.confirmations))

/-- The confirmation-count/status contract of `upsertDeposit`: every row it
wrote for the targeted `(txHash, logIndex)` stores the spec formula
clamped at `MAX_SAFE_INTEGER`, and is `confirmed` exactly when the stored
count reaches the configured minimum. -/
def upsertFormulaOk (cfg : WorkerConfig) (i : UpsertInput) (now : String)
    (table : List ChainDeposit) : Prop :=
  ∀ d ∈ upsertDeposit cfg i now table, depositKeyEq i.txHash i.logIndex d = true →
    d.confirmations = min (confirmationsBigInt i.latestBlock i.blockNumber) MAX_SAFE_INTEGER
    ∧ (d.status = .confirmed ↔ cfg.minConfirmations ≤ (d.confirmations : Int))

/-- The confirmation-count/status contract of `refreshPendingConfirmations`:
the sweep acts pointwise; a selected row (pending, `blockNumber ≤ head`)
ends with exactly `head − blockNumber + 1` confirmations (no clamp on this
path) and is `confirmed` exactly when that count reaches the configured
minimum; an unselected row is untouched. -/
def refreshFormulaOk (cfg : WorkerConfig) (latestBlock : Nat) (now : String)
    (table : List ChainDeposit) : Prop :=
  refreshPendingConfirmations cfg latestBlock now table
      = table.map (refreshRowFn cfg latestBlock now)
  ∧ ∀ d : ChainDeposit,
      (refreshSelect latestBlock d = true →
        (refreshRowFn cfg latestBlock now d).confirmations = latestBlock - d.blockNumber + 1
        ∧ ((refreshRowFn cfg latestBlock now d).status = .confirmed ↔
            cfg.minConfirmations ≤ ((latestBlock - d.blockNumber + 1 : Nat) : Int)))
      ∧ (refreshSelect latestBlock d = false → refreshRowFn cfg latestBlock now d = d)

/-- A second transfer identity `(0xabc, 1)` for batch fixtures. -/
def mkUpsertInputIdx1 (blockNumber latestBlock : Nat) : UpsertInput :=
  { mkUpsertInput blockNumber latestBlock with logIndex := 1 }

/-- A two-log batch with distinct `(txHash, logIndex)` identities. -/
def batchFix : List UpsertInput :=
  [mkUpsertInput 5 20, mkUpsertInputIdx1 6 20]

/-- The per-key contract after a batch: a row for `i`'s identity exists and
every such row stores the confirmation count and status computed from
`i`. -/
def KeyHasValues (cfg : WorkerConfig) (i : UpsertInput) (table : List ChainDeposit) : Prop :=
  table.any (depositKeyEq i.txHash i.logIndex) = true
  ∧ ∀ d ∈ table, depositKeyEq i.txHash i.logIndex d = true →
      d.confirmations = upsertConf i.latestBlock i.blockNumber
      ∧ d.status = statusFor cfg (upsertConf i.latestBlock i.blockNumber)

/-- `KeyHasValues` for every log of a batch. -/
def BatchValuesOk (cfg : WorkerConfig) (L : List UpsertInput) (table : List ChainDeposit) :
    Prop :=
  ∀ i ∈ L, KeyHasValues cfg i table

/-- The `uniqueEventId` encoding of a `(txHash, logIndex)` identity used as
the `chain_deposits` primary key. -/
def canonicalId (k : String × Nat) : String :=
  k.1 ++ ":" ++ toString k.2

/-- The canonical-id encoding is injective on a key universe `KS` (true of
the real encoding since a decimal log index contains no colon; assumed
here for the keys in play). -/
def KeyInjOn (KS : List (String × Nat)) : Prop :=
  ∀ k1 ∈ KS, ∀ k2 ∈ KS, canonicalId k1 = canonicalId k2 → k1 = k2

/-- The upsert key of an operation lies in the key universe. -/
def ChainOp.keyIn (KS : List (String × Nat)) : ChainOp → Prop
  | .upsert i _ => inputKey i ∈ KS
  | .refresh _ _ => True

/-- The standing state invariant of the scanner's deposit table, relative
to the last head `H` it was evaluated against: rows carry canonical ids,
identities are unique and drawn from `KS`, each identity has its fixed
block number `B`, and every confirmed row still clears the threshold when
re-evaluated at `H`. -/
def ScannerInv (cfg : WorkerConfig) (B : String × Nat → Nat) (KS : List (String × Nat))
    (H : Nat) (table : List ChainDeposit) : Prop :=
  (∀ d ∈ table, d.id = canonicalId (depositKey d))
  ∧ (table.map depositKey).Nodup
  ∧ (∀ d ∈ table, depositKey d ∈ KS)
  ∧ (∀ d ∈ table, d.blockNumber = B (depositKey d))
  ∧ ConfirmedHeadInv cfg H table

/-- Identity `k` is recorded and confirmed: some row carries it with status
`confirmed`, and every row carrying it is `confirmed`. -/
def KeyConfirmedState (k : String × Nat) (table : List ChainDeposit) : Prop :=
  (∃ d ∈ table, depositKey d = k ∧ d.status = .confirmed)
  ∧ ∀ d ∈ table, depositKey d = k → d.status = .confirmed

/-- A key-universe fixture with the single fixture identity. -/
def ksFix : List (String × Nat) := [("0xabc", 0)]

/-- The fixture block-number assignment. -/
def bFix : String × Nat → Nat := fun _ => 10

/-- A table holding one confirmed deposit (block 10 observed at head 100,
91 ≥ 50 confirmations). -/
def confirmedTableFix : List ChainDeposit :=
  upsertDeposit cfgFix (mkUpsertInput 10 100) "t1" []

/-- A monotone-head operation sequence over the fixture identity. -/
def opsFix : List ChainOp :=
  [.refresh 110 "t2", .upsert (mkUpsertInput 10 120) "t3"]

/-- An RPC view fixture: head 20, no transfer logs. -/
def rpcFix : RpcView :=
  { latestBlock := 20, getLogs := fun _ _ _ => [] }

/-- A worker-state fixture: cursor at 10 with one pending deposit. -/
def wsFix : WorkerState :=
  { cursor := some 10, deposits := [pendingRow5] }

/-- What holds after the first `k` durable writes of one poll cycle: the
stored cursor never decreases, and it changes only to the scanned head —
and only once every transfer log of the scan range has a recorded deposit
row. -/
def pollCycleConcl (cfg : WorkerConfig) (tokens : List TrackedToken) (rpc : RpcView)
    (now : String) (s : WorkerState) (k : Nat) : Prop :=
  cursorLe s.cursor (pollOnceUpTo cfg tokens rpc now s k).cursor
  ∧ ((pollOnceUpTo cfg tokens rpc now s k).cursor = s.cursor
    ∨ ((pollOnceUpTo cfg tokens rpc now s k).cursor = some rpc.latestBlock
      ∧ ∀ i ∈ scanInputs tokens rpc (resolveFromBlock cfg rpc.latestBlock s.cursor),
          (pollOnceUpTo cfg tokens rpc now s k).deposits.any
            (depositKeyEq i.txHash i.logIndex) = true))

end AiVideoEngine

/-! ## Theorems -/

namespace AiVideoEngine

/-- `statusFor` yields `confirmed` exactly on counts at or above the
threshold. -/
theorem statusFor_eq_confirmed_iff (cfg : WorkerConfig) (c : Nat) :
    statusFor cfg c = .confirmed ↔ cfg.minConfirmations ≤ (c : Int) := by
  unfold statusFor
  split <;> simp_all

/-- The clamped upsert-path count never exceeds the safe-integer ceiling. -/
theorem upsertConf_le_max_safe (latestBlock blockNumber : Nat) :
    upsertConf latestBlock blockNumber ≤ MAX_SAFE_INTEGER := by
  unfold upsertConf clampToSafeNumber
  split <;> omega

/-- The upsert-path count is the spec formula clamped at the ceiling. -/
theorem upsertConf_eq_min (latestBlock blockNumber : Nat) :
    upsertConf latestBlock blockNumber =
      min (confirmationsBigInt latestBlock blockNumber) MAX_SAFE_INTEGER := by
  unfold upsertConf clampToSafeNumber
  split <;> omega

/-- C2: the code, run on the claim's scenario.  Two webhooks for `tx1`, the
first `pending`, the second `confirmed` with 5 ≥ 2 confirmations: the
ledger stays empty (no credit grant at all), the user keeps 0 credits, and
the single payment row ends `succeeded`.  The claim (and the spec scenario)
require exactly one grant of `floor(500 / 100) = 5` credits. -/
theorem usdt_pending_then_confirmed_grants_nothing :
    (applyPayOps envFix ⟨[userFix], [], []⟩
      [.usdt (usdtPayloadFix .pending 0) "pay_1" "cred_1" "t1",
        .usdt (usdtPayloadFix .confirmed 5) "pay_2" "cred_2" "t2"]).ledger = []
    ∧ (applyPayOps envFix ⟨[userFix], [], []⟩
      [.usdt (usdtPayloadFix .pending 0) "pay_1" "cred_1" "t1",
        .usdt (usdtPayloadFix .confirmed 5) "pay_2" "cred_2" "t2"]).users.map User.apiCredits
        = [0]
    ∧ (applyPayOps envFix ⟨[userFix], [], []⟩
      [.usdt (usdtPayloadFix .pending 0) "pay_1" "cred_1" "t1",
        .usdt (usdtPayloadFix .confirmed 5) "pay_2" "cred_2" "t2"]).payments.map Payment.status
        = [.succeeded]
    ∧ derivedCredits (usdtPayloadFix .confirmed 5) = 5 := by
  decide

/-- C3 counterexample: at head `2^53 + 1` a transfer observed at block 1 is
stored with the clamped count `MAX_SAFE_INTEGER`, not with
`headBlock − observedBlock + 1`. -/
theorem upsert_conf_formula_cex :
    (upsertDeposit cfgFix (mkUpsertInput 1 (2 ^ 53 + 1)) "t1" []).map
        ChainDeposit.confirmations
      ≠ [(2 ^ 53 + 1) - 1 + 1] := by
  decide

/-- C9 counterexample: the reconciliation sweep stores an unclamped count.
A pending deposit at block 1 refreshed at head `2^53 + 2` is stored with
`2^53 + 2` confirmations, strictly above `Number.MAX_SAFE_INTEGER`. -/
theorem refresh_conf_unclamped_cex :
    (refreshPendingConfirmations cfgFix (2 ^ 53 + 2) "t1" [pendingRow1]).map
        ChainDeposit.confirmations = [2 ^ 53 + 2]
    ∧ MAX_SAFE_INTEGER < 2 ^ 53 + 2 := by
  decide

/-- C5 counterexample: re-upserting the same `(txHash, logIndex)` with a
lower head reverts a confirmed record to pending.  Block 10 at head 100
(≥ 50 confirmations) is confirmed; the same log re-observed at head 5 gets
0 confirmations and the stored status flips back to pending. -/
theorem confirmed_reverts_to_pending_cex :
    (applyChainOps cfgFix [] [.upsert (mkUpsertInput 10 100) "t1"]).map
        ChainDeposit.status = [.confirmed]
    ∧ (applyChainOps cfgFix []
        [.upsert (mkUpsertInput 10 100) "t1", .upsert (mkUpsertInput 10 5) "t2"]).map
        ChainDeposit.status = [.pending] := by
  decide

/-- C8 counterexample: `grantCredits` is two separate statements with no
transaction.  After the first statement (the balance `UPDATE`) and before
the ledger `INSERT` — the state the store is left in if the insert fails —
the user's balance is 5 while the sum of their ledger deltas is 0. -/
theorem grant_credits_not_atomic_cex :
    ((grantCreditsUpdate "usr_1" 5 "t1" ⟨[userFix], [], []⟩).1).users.map User.apiCredits
        = [5]
    ∧ ledgerUserSum (grantCreditsUpdate "usr_1" 5 "t1" ⟨[userFix], [], []⟩).1 "usr_1" = 0
    ∧ (0 : Int) ≠ 5 := by
  decide

/-- C10: when the canonical id `usdt_<transactionId>` is already recorded,
`handleUsdtPayment` rewrites only `status`, `rawPayloadJson` and
`updatedAt` of that row — `userId`, `amountMinor`, `currency` and
`creditsPurchased` keep their stored values, no row is inserted, no ledger
entry is appended — and a weaker replayed webhook (status `pending`)
overwrites the stored status back to `pending`. -/
theorem usdt_existing_row_frame (env : PayEnv) (p : UsdtPayload)
    (freshPayId entryId now : String) (s : PayState) (existing : Payment)
    (hfind : s.payments.find?
      (fun q => q.providerPaymentId == ("usdt_" ++ p.transactionId)) = some existing) :
    usdtExistingFrame env p now s
      ((handleUsdtPayment env p freshPayId entryId now s).1) existing
    ∧ (∀ q : Payment,
        (usdtStatusPatch env p now q).userId = q.userId
        ∧ (usdtStatusPatch env p now q).amountMinor = q.amountMinor
        ∧ (usdtStatusPatch env p now q).currency = q.currency
        ∧ (usdtStatusPatch env p now q).creditsPurchased = q.creditsPurchased
        ∧ (usdtStatusPatch env p now q).id = q.id
        ∧ (usdtStatusPatch env p now q).providerPaymentId = q.providerPaymentId
        ∧ (usdtStatusPatch env p now q).createdAt = q.createdAt
        ∧ (usdtStatusPatch env p now q).status = usdtPaymentStatus env p)
    ∧ (p.status = .pending → usdtPaymentStatus env p = .pending) := by
  refine ⟨?_, ?_, ?_⟩
  · unfold usdtExistingFrame
    simp only [handleUsdtPayment, hfind]
    simp [usdtStatusPatch]
  · intro q
    simp [usdtStatusPatch]
  · intro hst
    simp [usdtPaymentStatus, isPaymentSettled, hst]

/-- Witness for C10 at a concrete store: a `succeeded` row for `usdt_tx1`
overwritten by a replayed `pending` webhook. -/
theorem usdt_existing_row_frame_witness :
    ((⟨[userFix], [payRowFix], []⟩ : PayState).payments.find?
        (fun q => q.providerPaymentId ==
          ("usdt_" ++ (usdtPayloadFix .pending 0).transactionId)) = some payRowFix)
    ∧ usdtExistingFrame envFix (usdtPayloadFix .pending 0) "t9" ⟨[userFix], [payRowFix], []⟩
        ((handleUsdtPayment envFix (usdtPayloadFix .pending 0) "pay9" "cred9" "t9"
          ⟨[userFix], [payRowFix], []⟩).1) payRowFix
    ∧ ((handleUsdtPayment envFix (usdtPayloadFix .pending 0) "pay9" "cred9" "t9"
        ⟨[userFix], [payRowFix], []⟩).1).payments.map Payment.status = [.pending] :=
  ⟨by decide,
    (usdt_existing_row_frame envFix (usdtPayloadFix .pending 0) "pay9" "cred9" "t9"
      ⟨[userFix], [payRowFix], []⟩ payRowFix (by decide)).1,
    by decide⟩

/-- C8 amended: `grantCredits` runs its two statements in sequence with no
wrapping transaction.  When the user row is missing it returns failure
with the store unchanged (the no-row `UPDATE` mutated nothing and the
insert never ran); when the user row exists the completed call increments
that user's balance, appends exactly one ledger entry whose `balanceAfter`
equals the incremented balance, and shifts the user's ledger-delta sum by
exactly the granted delta. -/
theorem grant_credits_sequential (g : GrantInput) (entryId now : String) (s : PayState) :
    (s.users.find? (fun v => v.id == g.userId) = none →
      grantCredits g entryId now s = (s, false))
    ∧ (∀ u, s.users.find? (fun v => v.id == g.userId) = some u →
        grantSuccessConcl g entryId now s u) := by
  constructor
  · intro hfind
    unfold grantCredits grantCreditsUpdate
    rw [hfind]
  · intro u hfind
    unfold grantSuccessConcl grantCredits grantCreditsUpdate
    rw [hfind]
    refine ⟨rfl, rfl, ?_, rfl, ?_⟩
    · simp [grantCreditsInsert, bumpUser]
    · simp only [grantCreditsInsert, ledgerUserSum, List.filter_append, List.map_append,
        List.sum_append]
      simp [bumpUser]

/-- Witness for C8's amended statement: a successful grant of 5 credits to
the fixture user. -/
theorem grant_credits_sequential_witness :
    ((⟨[userFix], [], []⟩ : PayState).users.find? (fun v => v.id == "usr_1") = some userFix)
    ∧ grantSuccessConcl ⟨"usr_1", 5, "payment_usdt_confirmed", some "usdt_tx1", none⟩
        "cred_1" "t1" ⟨[userFix], [], []⟩ userFix :=
  ⟨by decide,
    (grant_credits_sequential ⟨"usr_1", 5, "payment_usdt_confirmed", some "usdt_tx1", none⟩
      "cred_1" "t1" ⟨[userFix], [], []⟩).2 userFix (by decide)⟩

/-- C7 counterexample: a settled webhook (`confirmed`, 5 ≥ 2
confirmations) for 50 minor units derives `floor(50/100) = 0` credits, so
no grant occurs — yet the fresh payment row is written with status
`succeeded`, not `pending` or `failed` as the claim's else-branch
requires. -/
theorem usdt_nongrant_status_cex :
    ((handleUsdtPayment envFix usdtSmallConfirmedFix "pay_1" "cred_1" "t1"
        ⟨[userFix], [], []⟩).1).payments.map Payment.status = [.succeeded]
    ∧ ((handleUsdtPayment envFix usdtSmallConfirmedFix "pay_1" "cred_1" "t1"
        ⟨[userFix], [], []⟩).1).ledger = []
    ∧ PaymentStatus.succeeded ≠ .pending ∧ PaymentStatus.succeeded ≠ .failed := by
  decide

/-- C7 amended: `handleUsdtPayment` appends a ledger entry — one entry, of
`floor(amountMinor / 100)` credits, tagged `usdt_<transactionId>` — iff
the payload is settled (`status == confirmed` and confirmations at or
above the configured minimum) AND no payment row with the canonical id
exists AND the derived credits are positive AND the payload's user row
exists; in every case the written or updated payment row carries the
computed status: `succeeded` when settled (even when no grant occurs),
`failed` when the payload status is `failed`, else `pending`. -/
theorem usdt_grant_characterization (env : PayEnv) (p : UsdtPayload)
    (freshPayId entryId now : String) (s : PayState)
    (hpid : (s.payments.map Payment.providerPaymentId).Nodup) :
    usdtGrantConcl env p freshPayId entryId now s := by
  have h5 : usdtPaymentStatus env p = .succeeded ↔ isPaymentSettled env p = true := by
    unfold usdtPaymentStatus
    rcases hset : isPaymentSettled env p
    · simp only [hset, Bool.false_eq_true, if_false, iff_false]
      split <;> simp
    · simp [hset]
  have h6 : isPaymentSettled env p = false →
      usdtPaymentStatus env p = if p.status = .failed then .failed else .pending := by
    intro hset
    unfold usdtPaymentStatus
    simp [hset]
  have h7 : isPaymentSettled env p = true ↔
      (p.status = .confirmed ∧ env.usdtConfirmationsRequired ≤ p.confirmations) := by
    unfold isPaymentSettled
    simp [Bool.and_eq_true, beq_iff_eq]
  unfold usdtGrantConcl handleUsdtPayment
  dsimp only
  rcases hfind : s.payments.find?
      (fun q => q.providerPaymentId == ("usdt_" ++ p.transactionId)) with _ | existing
  · -- no existing row: insert, and possibly grant
    have hnot := List.find?_eq_none.mp hfind
    rw [hfind]
    dsimp only
    by_cases hsp : isPaymentSettled env p = true ∧ 0 < derivedCredits p
    · rw [if_pos hsp]
      unfold grantCredits grantCreditsUpdate grantCreditsInsert
      rcases hu : s.users.find? (fun v => v.id == p.userId) with _ | u
      · rw [hu]
        dsimp only
        refine ⟨?_, Or.inl rfl,
          ⟨_, List.mem_append_right _ (List.mem_singleton.mpr rfl), rfl⟩, ?_, h5, h6, h7⟩
        · constructor
          · intro h
            exact absurd rfl h
          · intro hc
            have := hc.2.2.2
            rw [hu] at this
            simp at this
        · intro q hq hqpid
          rcases List.mem_append.mp hq with hq | hq
          · exact absurd (by simp [hqpid]) (hnot q hq)
          · rw [List.mem_singleton.mp hq]
      · rw [hu]
        dsimp only
        refine ⟨?_, Or.inr ⟨_, rfl, rfl, rfl, rfl⟩,
          ⟨_, List.mem_append_right _ (List.mem_singleton.mpr rfl), rfl⟩, ?_, h5, h6, h7⟩
        · constructor
          · intro _
            exact ⟨hsp.1, hfind, hsp.2, by rw [hu]; rfl⟩
          · intro _ habs
            have hlen := congrArg List.length habs
            simp only [List.length_append, List.length_singleton] at hlen
            omega
        · intro q hq hqpid
          rcases List.mem_append.mp hq with hq | hq
          · exact absurd (by simp [hqpid]) (hnot q hq)
          · rw [List.mem_singleton.mp hq]
    · rw [if_neg hsp]
      dsimp only
      refine ⟨?_, Or.inl rfl,
        ⟨_, List.mem_append_right _ (List.mem_singleton.mpr rfl), rfl⟩, ?_, h5, h6, h7⟩
      · constructor
        · intro h
          exact absurd rfl h
        · intro hc
          exact absurd ⟨hc.1, hc.2.2.1⟩ hsp
      · intro q hq hqpid
        rcases List.mem_append.mp hq with hq | hq
        · exact absurd (by simp [hqpid]) (hnot q hq)
        · rw [List.mem_singleton.mp hq]
  · -- existing row: in-place status update, never a grant
    have hmem := List.mem_of_find?_eq_some hfind
    have hpide : existing.providerPaymentId = "usdt_" ++ p.transactionId := by
      simpa using List.find?_some hfind
    rw [hfind]
    dsimp only
    refine ⟨?_, Or.inl rfl, ?_, ?_, h5, h6, h7⟩
    · constructor
      · intro h
        exact absurd rfl h
      · intro hc
        rw [hc.2.1] at hfind
        cases hfind
    · exact ⟨_, List.mem_map_of_mem _ hmem, by simp [hpide]⟩
    · intro q hq hqpid
      rcases List.mem_map.mp hq with ⟨q0, hq0, rfl⟩
      by_cases hid : (q0.id == existing.id) = true
      · simp [hid]
      · rw [if_neg hid] at hqpid ⊢
        have : q0 = existing :=
          List.inj_on_of_nodup_map hpid hq0 hmem (hqpid.trans hpide.symm)
        exact absurd (by simp [this]) hid

theorem countP_append_single {α : Type} (p : α → Bool) (l : List α) (a : α) :
    List.countP p (l ++ [a]) = List.countP p l + (if p a then 1 else 0) := by
  simp [List.countP_append, List.countP_cons]

/-- `grantCredits` leaves the payments table alone and appends at most one
ledger entry, tagged with its own reference id. -/
theorem grantCredits_state (g : GrantInput) (entryId now : String) (s : PayState) :
    (grantCredits g entryId now s).1.payments = s.payments
    ∧ ((grantCredits g entryId now s).1.ledger = s.ledger
      ∨ ∃ e : LedgerEntry, (grantCredits g entryId now s).1.ledger = s.ledger ++ [e]
          ∧ e.referenceId = g.referenceId) := by
  unfold grantCredits grantCreditsUpdate grantCreditsInsert
  rcases h : s.users.find? (fun v => v.id == g.userId) with _ | u
  · rw [h]
    exact ⟨rfl, Or.inl rfl⟩
  · rw [h]
    exact ⟨rfl, Or.inr ⟨_, rfl, rfl⟩⟩

/-- Inserting a fresh payment row for a canonical id that has no existing
row, and then (possibly) granting with that id as reference, preserves the
dedup invariant. -/
theorem dedup_after_insert (s : PayState) (row : Payment) (g : GrantInput)
    (entryId now : String) (hinv : DedupInv s)
    (hnone : s.payments.find? (fun q => q.providerPaymentId == row.providerPaymentId) = none)
    (href : g.referenceId = some row.providerPaymentId) :
    DedupInv { s with payments := s.payments ++ [row] }
    ∧ DedupInv (grantCredits g entryId now { s with payments := s.payments ++ [row] }).1 := by
  have hzero :
      List.countP (fun q => q.providerPaymentId == row.providerPaymentId) s.payments = 0 :=
    List.countP_eq_zero.mpr (List.find?_eq_none.mp hnone)
  have step1 : DedupInv { s with payments := s.payments ++ [row] } := by
    intro r
    obtain ⟨h1, h2⟩ := hinv r
    simp only [paymentRefCount, ledgerRefCount] at h1 h2 ⊢
    rw [countP_append_single]
    by_cases hr : row.providerPaymentId = r
    · subst hr
      rw [if_pos (by simp)]
      exact ⟨by omega, by omega⟩
    · rw [if_neg (by simp [hr])]
      exact ⟨by omega, by omega⟩
  refine ⟨step1, ?_⟩
  obtain ⟨hpays, hled⟩ := grantCredits_state g entryId now { s with payments := s.payments ++ [row] }
  intro r
  obtain ⟨h1, h2⟩ := step1 r
  rcases hled with hsame | ⟨e, heq, hrefe⟩
  · simp only [paymentRefCount, ledgerRefCount] at h1 h2 ⊢
    rw [hpays, hsame]
    exact ⟨h1, h2⟩
  · obtain ⟨g1, g2⟩ := hinv row.providerPaymentId
    simp only [paymentRefCount, ledgerRefCount] at h1 h2 g1 g2 ⊢
    rw [hpays, heq, countP_append_single, hrefe, href]
    dsimp only at h1 h2 ⊢
    rw [countP_append_single] at h1 h2 ⊢
    by_cases hr : row.providerPaymentId = r
    · subst hr
      rw [if_pos (by simp)] at h1 h2 ⊢
      rw [if_pos (by simp)]
      exact ⟨by omega, by omega⟩
    · rw [if_neg (by simp [hr])] at h1 h2 ⊢
      rw [if_neg (by simp [hr])]
      exact ⟨by omega, by omega⟩

/-- Any single settlement event preserves the dedup invariant. -/
theorem applyPayOp_dedup (env : PayEnv) (s : PayState) (op : PayOp) (hinv : DedupInv s) :
    DedupInv (applyPayOp env s op) := by
  cases op with
  | stripe e freshPayId entryId now =>
    cases e with
    | checkoutSessionCompleted sessionId metaUserId creditsToBuy amountTotal currency rawJson =>
      unfold applyPayOp handleStripeEvent
      rcases metaUserId with _ | userId
      · exact hinv
      rcases creditsToBuy with _ | credits
      · exact hinv
      dsimp only
      by_cases hg : userId = "" ∨ credits ≤ 0
      · rw [if_pos hg]
        exact hinv
      rw [if_neg hg]
      rcases hfind : s.payments.find?
          (fun p => p.providerPaymentId == ("stripe_" ++ sessionId)) with _ | q
      · rw [hfind]
        refine (dedup_after_insert s _ _ entryId now hinv hfind ?_).2
        rfl
      · rw [hfind]
        exact hinv
    | paymentIntentSucceeded intentId metaUserId creditsToBuy amountReceived amount currency rawJson =>
      unfold applyPayOp handleStripeEvent
      rcases metaUserId with _ | userId
      · exact hinv
      rcases creditsToBuy with _ | credits
      · exact hinv
      dsimp only
      by_cases hg : userId = "" ∨ credits ≤ 0
      · rw [if_pos hg]
        exact hinv
      rw [if_neg hg]
      rcases hfind : s.payments.find?
          (fun p => p.providerPaymentId == ("stripe_pi_" ++ intentId)) with _ | q
      · rw [hfind]
        refine (dedup_after_insert s _ _ entryId now hinv hfind ?_).2
        rfl
      · rw [hfind]
        exact hinv
    | otherEvent =>
      exact hinv
  | usdt p freshPayId entryId now =>
    unfold applyPayOp handleUsdtPayment
    dsimp only
    rcases hfind : s.payments.find?
        (fun q => q.providerPaymentId == ("usdt_" ++ p.transactionId)) with _ | existing
    · rw [hfind]
      dsimp only
      by_cases hsp : isPaymentSettled env p = true ∧ 0 < derivedCredits p
      · rw [if_pos hsp]
        refine (dedup_after_insert s _ _ entryId now hinv hfind ?_).2
        rfl
      · rw [if_neg hsp]
        exact (dedup_after_insert s _
          { userId := p.userId
            deltaCredits := derivedCredits p
            reason := "payment_usdt_confirmed"
            referenceId := some ("usdt_" ++ p.transactionId)
            metadataJson := some (usdtPayloadJson p) } entryId now hinv hfind rfl).1
    · rw [hfind]
      intro r
      obtain ⟨h1, h2⟩ := hinv r
      simp only [paymentRefCount, ledgerRefCount] at h1 h2 ⊢
      rw [List.countP_map]
      have hsame : List.countP
          ((fun q : Payment => q.providerPaymentId == r) ∘
            (fun q => if q.id == existing.id then
              { q with
                status := usdtPaymentStatus env p
                rawPayloadJson := usdtPayloadJson p
                updatedAt := now }
              else q)) s.payments
          = List.countP (fun q : Payment => q.providerPaymentId == r) s.payments := by
        apply List.countP_congr
        intro a _
        by_cases hid : (a.id == existing.id) = true
        · simp [Function.comp, hid]
        · simp [Function.comp, hid]
      rw [hsame]
      exact ⟨h1, h2⟩

/-- Any sequence of settlement events preserves the dedup invariant. -/
theorem applyPayOps_dedup (env : PayEnv) (s : PayState) (ops : List PayOp)
    (hinv : DedupInv s) : DedupInv (applyPayOps env s ops) := by
  induction ops generalizing s with
  | nil => exact hinv
  | cons op t ih =>
    exact ih (applyPayOp env s op) (applyPayOp_dedup env s op hinv)

/-- C1: starting from any store satisfying the dedup invariant (e.g. the
empty store), after any sequence of deliveries processed sequentially
through `handleStripeEvent` or `handleUsdtPayment`, the credit ledger
holds at most one entry tagged with any fixed reference id. -/
theorem exactly_once_credit_grant (env : PayEnv) (s : PayState) (ops : List PayOp)
    (r : String) (hinv : DedupInv s) :
    ledgerRefCount (applyPayOps env s ops) r ≤ 1 := by
  have h := applyPayOps_dedup env s ops hinv r
  exact le_trans h.1 h.2

/-- Witness for C1: the same checkout-completion event delivered twice from
the empty store; the ledger ends with at most one `stripe_sess1` entry. -/
theorem exactly_once_credit_grant_witness :
    DedupInv ⟨[userFix], [], []⟩
    ∧ ledgerRefCount
        (applyPayOps envFix ⟨[userFix], [], []⟩
          [.stripe (.checkoutSessionCompleted "sess1" (some "usr_1") (some 10) (some 1000)
              (some "usd") "raw1") "pay_1" "cred_1" "t1",
            .stripe (.checkoutSessionCompleted "sess1" (some "usr_1") (some 10) (some 1000)
              (some "usd") "raw1") "pay_2" "cred_2" "t2"])
        "stripe_sess1" ≤ 1 :=
  ⟨fun r => by simp [ledgerRefCount, paymentRefCount],
    exactly_once_credit_grant envFix ⟨[userFix], [], []⟩ _ "stripe_sess1"
      (fun r => by simp [ledgerRefCount, paymentRefCount])⟩

/-- Witness for C7's amended statement: from an empty payments table a
settled webhook for 500 minor units grants once. -/
theorem usdt_grant_characterization_witness :
    (((⟨[userFix], [], []⟩ : PayState).payments.map Payment.providerPaymentId).Nodup)
    ∧ usdtGrantConcl envFix (usdtPayloadFix .confirmed 5) "pay_1" "cred_1" "t1"
        ⟨[userFix], [], []⟩ :=
  ⟨by simp, usdt_grant_characterization envFix (usdtPayloadFix .confirmed 5) "pay_1" "cred_1"
    "t1" ⟨[userFix], [], []⟩ (by simp)⟩

theorem refresh_ops_foldl (cfg : WorkerConfig) (latestBlock : Nat) (now : String) :
    ∀ (sel t : List ChainDeposit),
      ((sel.filterMap fun d => if refreshSkip cfg latestBlock d then none
          else some (updateDepositById d.id (refreshConf latestBlock d)
            (statusFor cfg (refreshConf latestBlock d)) now)).foldl (fun t f => f t) t)
        = sel.foldl
            (fun t r => if refreshSkip cfg latestBlock r then t
              else updateDepositById r.id (refreshConf latestBlock r)
                (statusFor cfg (refreshConf latestBlock r)) now t) t := by
  intro sel
  induction sel with
  | nil =>
    intro t
    rfl
  | cons a s ih =>
    intro t
    by_cases h : refreshSkip cfg latestBlock a = true
    · rw [List.filterMap_cons_none (by rw [if_pos h]), List.foldl_cons, if_pos h, ih]
    · rw [List.filterMap_cons_some (by rw [if_neg h]), List.foldl_cons, List.foldl_cons,
        if_neg h, ih]

/-- The select-then-update-by-id loop of the sweep acts pointwise on the
table when every selected row is the unique owner of its `id`. -/
theorem refresh_fold_aux (cfg : WorkerConfig) (latestBlock : Nat) (now : String) :
    ∀ (sel t : List ChainDeposit),
      (∀ r ∈ sel, refreshSelect latestBlock r = true) →
      (∀ r ∈ sel, ∀ d ∈ t, d.id = r.id → d = r) →
      sel.Pairwise (fun a b => a.id ≠ b.id) →
      sel.foldl
        (fun t r => if refreshSkip cfg latestBlock r then t
          else updateDepositById r.id (refreshConf latestBlock r)
            (statusFor cfg (refreshConf latestBlock r)) now t) t
      = t.map (fun d =>
          if sel.any (fun r => d.id == r.id) then refreshRowFn cfg latestBlock now d else d) := by
  intro sel
  induction sel with
  | nil =>
    intro t _ _ _
    simp
  | cons r sel' ih =>
    intro t hsel hknow hpw
    have hrsel : refreshSelect latestBlock r = true := hsel r (List.mem_cons_self r sel')
    have hpw' := List.pairwise_cons.mp hpw
    have hanyr : ∀ d : ChainDeposit, d.id = r.id →
        (sel'.any fun x => d.id == x.id) = false := by
      intro d hdid
      apply List.any_eq_false.mpr
      intro x hx
      simp only [beq_iff_eq]
      rw [hdid]
      exact hpw'.1 x hx
    rw [List.foldl_cons]
    by_cases hskip : refreshSkip cfg latestBlock r = true
    · rw [if_pos hskip,
        ih t (fun x hx => hsel x (List.mem_cons_of_mem r hx))
          (fun x hx d hd => hknow x (List.mem_cons_of_mem r hx) d hd) hpw'.2]
      apply List.map_congr_left
      intro d hd
      by_cases hid : (d.id == r.id) = true
      · have hdid : d.id = r.id := by simpa using hid
        have hdr : d = r := hknow r (List.mem_cons_self r sel') d hd hdid
        have hrow : refreshRowFn cfg latestBlock now d = d := by
          rw [hdr]
          unfold refreshRowFn
          rw [if_pos hrsel, if_pos hskip]
        rw [hanyr d hdid, if_neg (by simp), if_pos (by simp [List.any_cons, hid]), hrow]
      · have heq : ((r :: sel').any fun x => d.id == x.id)
            = (sel'.any fun x => d.id == x.id) := by
          simp [List.any_cons, hid]
        rw [heq]
    · rw [if_neg hskip]
      have hknow' : ∀ x ∈ sel', ∀ d ∈ updateDepositById r.id (refreshConf latestBlock r)
          (statusFor cfg (refreshConf latestBlock r)) now t, d.id = x.id → d = x := by
        intro x hx d' hd' hids
        unfold updateDepositById at hd'
        rcases List.mem_map.mp hd' with ⟨d, hd, rfl⟩
        by_cases hid : (d.id == r.id) = true
        · rw [if_pos hid] at hids
          dsimp only at hids
          have hdid : d.id = r.id := by simpa using hid
          exfalso
          apply hpw'.1 x hx
          rw [← hids, hdid]
        · rw [if_neg hid] at hids ⊢
          exact hknow x (List.mem_cons_of_mem r hx) d hd hids
      rw [ih _ (fun x hx => hsel x (List.mem_cons_of_mem r hx)) hknow' hpw'.2]
      unfold updateDepositById
      rw [List.map_map]
      apply List.map_congr_left
      intro d hd
      simp only [Function.comp]
      by_cases hid : (d.id == r.id) = true
      · have hdid : d.id = r.id := by simpa using hid
        have hdr : d = r := hknow r (List.mem_cons_self r sel') d hd hdid
        have hrow : refreshRowFn cfg latestBlock now d
            = { d with
                confirmations := refreshConf latestBlock r
                status := statusFor cfg (refreshConf latestBlock r)
                updatedAt := now } := by
          rw [hdr]
          unfold refreshRowFn
          rw [if_pos hrsel, if_neg hskip]
        rw [if_pos hid]
        try dsimp only
        rw [hanyr d hdid, if_neg (by simp), if_pos (by simp [List.any_cons, hid]), hrow]
      · rw [if_neg hid]
        try dsimp only
        have heq : ((r :: sel').any fun x => d.id == x.id)
            = (sel'.any fun x => d.id == x.id) := by
          simp [List.any_cons, hid]
        rw [heq]

/-- With pairwise-distinct row ids (the `id` column is the table's primary
key) one reconciliation sweep equals the pointwise re-evaluation
`refreshRowFn`. -/
theorem refresh_eq_map (cfg : WorkerConfig) (latestBlock : Nat) (now : String)
    (table : List ChainDeposit) (hnd : (table.map ChainDeposit.id).Nodup) :
    refreshPendingConfirmations cfg latestBlock now table
      = table.map (refreshRowFn cfg latestBlock now) := by
  unfold refreshPendingConfirmations refreshRowOps
  rw [refresh_ops_foldl]
  have hsub : ((table.filter (refreshSelect latestBlock)).map ChainDeposit.id).Sublist
      (table.map ChainDeposit.id) :=
    (List.filter_sublist table).map ChainDeposit.id
  rw [refresh_fold_aux cfg latestBlock now (table.filter (refreshSelect latestBlock)) table
    (fun r hr => List.of_mem_filter hr)
    (fun r hr d hd hid => List.inj_on_of_nodup_map hnd hd (List.mem_of_mem_filter hr) hid)
    (List.pairwise_map.mp (hnd.sublist hsub))]
  apply List.map_congr_left
  intro d hd
  by_cases hsel : refreshSelect latestBlock d = true
  · rw [if_pos (List.any_eq_true.mpr ⟨d, List.mem_filter.mpr ⟨hd, hsel⟩, by simp⟩)]
  · have hrow : refreshRowFn cfg latestBlock now d = d := by
      unfold refreshRowFn
      rw [if_neg (by simp [hsel])]
    rw [hrow, ite_self]

/-- C3 amended: on first observation `upsertDeposit` stores
`min(headBlock − observedBlock + 1, MAX_SAFE_INTEGER)` when
`headBlock ≥ observedBlock` and 0 otherwise (the claim's formula holds
only below the clamp), and on re-evaluation the sweep touches exactly the
pending rows with `blockNumber ≤ head`, storing the exact
`head − blockNumber + 1`; on both paths the stored status is `confirmed`
iff the stored count is at least the configured minimum. -/
theorem conf_formula_clamped (cfg : WorkerConfig) (i : UpsertInput) (now : String)
    (table : List ChainDeposit) (latestBlock : Nat)
    (hnd : (table.map ChainDeposit.id).Nodup) :
    upsertFormulaOk cfg i now table ∧ refreshFormulaOk cfg latestBlock now table := by
  constructor
  · intro d hd hkey
    unfold upsertDeposit at hd
    by_cases hany : table.any (depositKeyEq i.txHash i.logIndex) = true
    · rw [if_pos hany] at hd
      rcases List.mem_map.mp hd with ⟨d0, hd0, rfl⟩
      by_cases hk0 : depositKeyEq i.txHash i.logIndex d0 = true
      · rw [if_pos hk0]
        refine ⟨upsertConf_eq_min i.latestBlock i.blockNumber, ?_⟩
        exact statusFor_eq_confirmed_iff cfg (upsertConf i.latestBlock i.blockNumber)
      · rw [if_neg hk0] at hkey ⊢
        exact absurd hkey hk0
    · rw [if_neg hany] at hd
      rcases List.mem_append.mp hd with hd | hd
      · exact absurd hkey (by simpa using (List.any_eq_false.mp (by simpa using hany)) d hd)
      · rw [List.mem_singleton.mp hd]
        refine ⟨upsertConf_eq_min i.latestBlock i.blockNumber, ?_⟩
        exact statusFor_eq_confirmed_iff cfg (upsertConf i.latestBlock i.blockNumber)
  · refine ⟨refresh_eq_map cfg latestBlock now table hnd, ?_⟩
    intro d
    constructor
    · intro hsel
      unfold refreshRowFn
      rw [if_pos hsel]
      by_cases hskip : refreshSkip cfg latestBlock d = true
      · rw [if_pos hskip]
        unfold refreshSkip at hskip
        have h1 : refreshConf latestBlock d = d.confirmations := by
          have := (Bool.and_eq_true _ _).mp hskip
          simpa using this.1
        have h2 : statusFor cfg (refreshConf latestBlock d) = d.status := by
          have := (Bool.and_eq_true _ _).mp hskip
          simpa using this.2
        refine ⟨h1.symm, ?_⟩
        rw [← h2]
        exact statusFor_eq_confirmed_iff cfg (refreshConf latestBlock d)
      · rw [if_neg hskip]
        exact ⟨rfl, statusFor_eq_confirmed_iff cfg (refreshConf latestBlock d)⟩
    · intro hsel
      unfold refreshRowFn
      rw [if_neg (by simp [hsel])]

/-- Witness for C3's amended statement: a transfer at block 5 upserted at
head 20, and a sweep of the pending fixture row at head 20. -/
theorem conf_formula_clamped_witness :
    (([pendingRow5].map ChainDeposit.id).Nodup)
    ∧ upsertFormulaOk cfgFix (mkUpsertInput 5 20) "t1" [pendingRow5]
    ∧ refreshFormulaOk cfgFix 20 "t1" [pendingRow5] :=
  ⟨by simp,
    (conf_formula_clamped cfgFix (mkUpsertInput 5 20) "t1" [pendingRow5] 20 (by simp)).1,
    (conf_formula_clamped cfgFix (mkUpsertInput 5 20) "t1" [pendingRow5] 20 (by simp)).2⟩

/-- C9 amended: the clamp to `MAX_SAFE_INTEGER` protects only the
first-observation path: every confirmation count `upsertDeposit` writes is
at most `MAX_SAFE_INTEGER`, while the reconciliation sweep stores the
exact, unclamped `head − blockNumber + 1` for every selected row — a
value that exceeds the ceiling once the head is far enough beyond the
recorded block. -/
theorem conf_clamp_paths (cfg : WorkerConfig) (i : UpsertInput) (now : String)
    (table : List ChainDeposit) :
    (∀ latestBlock blockNumber : Nat, upsertConf latestBlock blockNumber ≤ MAX_SAFE_INTEGER)
    ∧ (∀ d ∈ upsertDeposit cfg i now table, d ∈ table ∨ d.confirmations ≤ MAX_SAFE_INTEGER)
    ∧ (∀ latestBlock : Nat, ∀ d : ChainDeposit, refreshSelect latestBlock d = true →
        refreshConf latestBlock d = latestBlock - d.blockNumber + 1) := by
  refine ⟨upsertConf_le_max_safe, ?_, fun _ _ _ => rfl⟩
  intro d hd
  unfold upsertDeposit at hd
  by_cases hany : table.any (depositKeyEq i.txHash i.logIndex) = true
  · rw [if_pos hany] at hd
    rcases List.mem_map.mp hd with ⟨d0, hd0, rfl⟩
    by_cases hk0 : depositKeyEq i.txHash i.logIndex d0 = true
    · rw [if_pos hk0]
      exact Or.inr (upsertConf_le_max_safe i.latestBlock i.blockNumber)
    · rw [if_neg hk0]
      exact Or.inl hd0
  · rw [if_neg hany] at hd
    rcases List.mem_append.mp hd with hd | hd
    · exact Or.inl hd
    · rw [List.mem_singleton.mp hd]
      exact Or.inr (upsertConf_le_max_safe i.latestBlock i.blockNumber)

theorem depositKeyEq_iff (tx : String) (idx : Nat) (d : ChainDeposit) :
    depositKeyEq tx idx d = true ↔ depositKey d = (tx, idx) := by
  unfold depositKeyEq depositKey
  simp [Bool.and_eq_true, beq_iff_eq, Prod.ext_iff]

theorem keyEq_patch (tx : String) (idx : Nat) (c : Prop) [Decidable c] (d : ChainDeposit)
    (conf : Nat) (st : DepositStatus) (now : String) :
    depositKeyEq tx idx
        (if c then { d with confirmations := conf, status := st, updatedAt := now } else d)
      = depositKeyEq tx idx d := by
  split <;> rfl

/-- The upsert of log `i` leaves its own key's rows carrying the values
computed from `i`. -/
theorem upsert_establishes (cfg : WorkerConfig) (i : UpsertInput) (now : String)
    (table : List ChainDeposit) : KeyHasValues cfg i (upsertDeposit cfg i now table) := by
  unfold upsertDeposit
  by_cases hany : table.any (depositKeyEq i.txHash i.logIndex) = true
  · rw [if_pos hany]
    constructor
    · rcases List.any_eq_true.mp hany with ⟨d0, hd0, hk0⟩
      apply List.any_eq_true.mpr
      refine ⟨_, List.mem_map_of_mem _ hd0, ?_⟩
      rw [keyEq_patch]
      exact hk0
    · intro d hd hkd
      rcases List.mem_map.mp hd with ⟨d0, hd0, rfl⟩
      by_cases hk0 : depositKeyEq i.txHash i.logIndex d0 = true
      · rw [if_pos hk0]
        exact ⟨rfl, rfl⟩
      · rw [if_neg hk0] at hkd ⊢
        exact absurd hkd hk0
  · rw [if_neg hany]
    constructor
    · apply List.any_eq_true.mpr
      refine ⟨freshDepositRow cfg i now, List.mem_append_right _ (List.mem_singleton.mpr rfl), ?_⟩
      unfold depositKeyEq freshDepositRow
      simp
    · intro d hd hkd
      rcases List.mem_append.mp hd with hd | hd
      · exact absurd hkd (by simpa using (List.any_eq_false.mp (by simpa using hany)) d hd)
      · rw [List.mem_singleton.mp hd]
        exact ⟨rfl, rfl⟩

/-- The upsert of a log with a different identity does not disturb key
`i`'s rows. -/
theorem upsert_preserves_other_key (cfg : WorkerConfig) (i j : UpsertInput) (now : String)
    (table : List ChainDeposit) (hne : inputKey j ≠ inputKey i)
    (hK : KeyHasValues cfg i table) :
    KeyHasValues cfg i (upsertDeposit cfg j now table) := by
  unfold upsertDeposit
  by_cases hany : table.any (depositKeyEq j.txHash j.logIndex) = true
  · rw [if_pos hany]
    constructor
    · rcases List.any_eq_true.mp hK.1 with ⟨d0, hd0, hk0⟩
      apply List.any_eq_true.mpr
      refine ⟨_, List.mem_map_of_mem _ hd0, ?_⟩
      rw [keyEq_patch]
      exact hk0
    · intro d hd hkd
      rcases List.mem_map.mp hd with ⟨d0, hd0, rfl⟩
      rw [keyEq_patch] at hkd
      by_cases hk0 : depositKeyEq j.txHash j.logIndex d0 = true
      · exfalso
        apply hne
        have h1 := (depositKeyEq_iff _ _ _).mp hkd
        have h2 := (depositKeyEq_iff _ _ _).mp hk0
        unfold inputKey
        rw [← h1, ← h2]
      · rw [if_neg hk0]
        exact hK.2 d0 hd0 hkd
  · rw [if_neg hany]
    constructor
    · rcases List.any_eq_true.mp hK.1 with ⟨d0, hd0, hk0⟩
      exact List.any_eq_true.mpr ⟨d0, List.mem_append_left _ hd0, hk0⟩
    · intro d hd hkd
      rcases List.mem_append.mp hd with hd | hd
      · exact hK.2 d hd hkd
      · exfalso
        rw [List.mem_singleton.mp hd] at hkd
        apply hne
        have h1 := (depositKeyEq_iff _ _ _).mp hkd
        unfold inputKey
        rw [← h1]
        rfl

/-- When keys `i` and `j` both already carry their computed values, the
upsert of `i` keeps `j`'s contract (on shared identities the computed
values coincide). -/
theorem upsert_preserves_both (cfg : WorkerConfig) (i j : UpsertInput) (now : String)
    (table : List ChainDeposit) (hKi : KeyHasValues cfg i table)
    (hKj : KeyHasValues cfg j table) :
    KeyHasValues cfg j (upsertDeposit cfg i now table) := by
  unfold upsertDeposit
  rw [if_pos hKi.1]
  constructor
  · rcases List.any_eq_true.mp hKj.1 with ⟨d0, hd0, hk0⟩
    apply List.any_eq_true.mpr
    refine ⟨_, List.mem_map_of_mem _ hd0, ?_⟩
    rw [keyEq_patch]
    exact hk0
  · intro d hd hkd
    rcases List.mem_map.mp hd with ⟨d0, hd0, rfl⟩
    rw [keyEq_patch] at hkd
    by_cases hk0 : depositKeyEq i.txHash i.logIndex d0 = true
    · rw [if_pos hk0]
      obtain ⟨hci, hsi⟩ := hKi.2 d0 hd0 hk0
      obtain ⟨hcj, hsj⟩ := hKj.2 d0 hd0 hkd
      constructor
      · dsimp only
        rw [← hci, hcj]
      · dsimp only
        rw [← hsi, hsj]
    · rw [if_neg hk0]
      exact hKj.2 d0 hd0 hkd

/-- A batch whose logs all carry identities different from `i`'s does not
disturb key `i`'s rows. -/
theorem upsertBatch_frame (cfg : WorkerConfig) (now : String) (i : UpsertInput) :
    ∀ (L : List UpsertInput) (table : List ChainDeposit),
      (∀ j ∈ L, inputKey j ≠ inputKey i) → KeyHasValues cfg i table →
      KeyHasValues cfg i (upsertBatch cfg now L table) := by
  intro L
  induction L with
  | nil =>
    intro table _ hK
    exact hK
  | cons j L' ih =>
    intro table h hK
    show KeyHasValues cfg i (upsertBatch cfg now L' (upsertDeposit cfg j now table))
    exact ih _ (fun x hx => h x (List.mem_cons_of_mem j hx))
      (upsert_preserves_other_key cfg i j now table (h j (List.mem_cons_self j L')) hK)

/-- After a batch of key-distinct logs, every log's key carries the values
computed from that log. -/
theorem upsertBatch_values (cfg : WorkerConfig) (now : String) :
    ∀ (L : List UpsertInput) (table : List ChainDeposit),
      (L.map inputKey).Nodup → BatchValuesOk cfg L (upsertBatch cfg now L table) := by
  intro L
  induction L with
  | nil =>
    intro table _ i hi
    exact absurd hi (List.not_mem_nil i)
  | cons i L' ih =>
    intro table hdist j hj
    rcases List.mem_cons.mp hj with rfl | hj'
    · show KeyHasValues cfg j (upsertBatch cfg now L' (upsertDeposit cfg j now table))
      apply upsertBatch_frame
      · intro x hx hxe
        exact (List.nodup_cons.mp hdist).1 (hxe ▸ List.mem_map_of_mem inputKey hx)
      · exact upsert_establishes cfg j now table
    · exact ih (upsertDeposit cfg i now table) (List.nodup_cons.mp hdist).2 j hj'

/-- Replaying a batch over a table already carrying its values only touches
`updated_at`. -/
theorem upsertBatch_second_pass (cfg : WorkerConfig) (now2 : String) :
    ∀ (L : List UpsertInput) (t : List ChainDeposit),
      BatchValuesOk cfg L t →
      (upsertBatch cfg now2 L t).map stripUpdatedAt = t.map stripUpdatedAt := by
  intro L
  induction L with
  | nil =>
    intro t _
    rfl
  | cons i L' ih =>
    intro t h
    have hKi := h i (List.mem_cons_self i L')
    have hstep : (upsertDeposit cfg i now2 t).map stripUpdatedAt = t.map stripUpdatedAt := by
      unfold upsertDeposit
      rw [if_pos hKi.1, List.map_map]
      apply List.map_congr_left
      intro d hd
      simp only [Function.comp]
      by_cases hk : depositKeyEq i.txHash i.logIndex d = true
      · rw [if_pos hk]
        obtain ⟨hc, hs⟩ := hKi.2 d hd hk
        unfold stripUpdatedAt
        rw [← hs, ← hc]
      · rw [if_neg hk]
    have hvals : BatchValuesOk cfg L' (upsertDeposit cfg i now2 t) := fun j hj =>
      upsert_preserves_both cfg i j now2 t hKi (h j (List.mem_cons_of_mem i hj))
    show (upsertBatch cfg now2 L' (upsertDeposit cfg i now2 t)).map stripUpdatedAt
        = t.map stripUpdatedAt
    rw [ih _ hvals, hstep]

/-- One upsert preserves distinctness of the `(txHash, logIndex)`
identities. -/
theorem upsert_nodup_keys (cfg : WorkerConfig) (i : UpsertInput) (now : String)
    (table : List ChainDeposit) (h : (table.map depositKey).Nodup) :
    ((upsertDeposit cfg i now table).map depositKey).Nodup := by
  unfold upsertDeposit
  by_cases hany : table.any (depositKeyEq i.txHash i.logIndex) = true
  · rw [if_pos hany, List.map_map]
    have heq : table.map (depositKey ∘ fun d =>
        if depositKeyEq i.txHash i.logIndex d then
          { d with
            confirmations := upsertConf i.latestBlock i.blockNumber
            status := statusFor cfg (upsertConf i.latestBlock i.blockNumber)
            updatedAt := now }
        else d) = table.map depositKey := by
      apply List.map_congr_left
      intro d _
      simp only [Function.comp]
      split <;> rfl
    rw [heq]
    exact h
  · rw [if_neg hany, List.map_append]
    apply List.Nodup.append h (by simp)
    intro a ha hb
    rcases List.mem_map.mp ha with ⟨d, hd, rfl⟩
    have hbb : depositKey d = depositKey (freshDepositRow cfg i now) := by
      simpa using hb
    have hdk : depositKey d = (i.txHash, i.logIndex) := hbb
    have := (depositKeyEq_iff i.txHash i.logIndex d).mpr hdk
    exact absurd this (by simpa using (List.any_eq_false.mp (by simpa using hany)) d hd)

/-- A batch of upserts preserves distinctness of identities. -/
theorem upsertBatch_nodup_keys (cfg : WorkerConfig) (now : String) :
    ∀ (L : List UpsertInput) (table : List ChainDeposit),
      (table.map depositKey).Nodup → ((upsertBatch cfg now L table).map depositKey).Nodup := by
  intro L
  induction L with
  | nil =>
    intro table h
    exact h
  | cons i L' ih =>
    intro table h
    exact ih _ (upsert_nodup_keys cfg i now table h)

/-- C6: replaying the same batch of transfer logs (same logs, same head)
through the scanner's upsert step twice yields the same records as one
pass — the second pass changes nothing but `updated_at` — and a batch
never introduces a duplicate `(txHash, logIndex)` identity. -/
theorem upsert_batch_idempotent (cfg : WorkerConfig) (now1 now2 : String)
    (L : List UpsertInput) (table : List ChainDeposit)
    (hdist : (L.map inputKey).Nodup) :
    ((upsertBatch cfg now2 L (upsertBatch cfg now1 L table)).map stripUpdatedAt
      = (upsertBatch cfg now1 L table).map stripUpdatedAt)
    ∧ ((table.map depositKey).Nodup →
        ((upsertBatch cfg now1 L table).map depositKey).Nodup) :=
  ⟨upsertBatch_second_pass cfg now2 L _ (upsertBatch_values cfg now1 L table hdist),
    fun hkeys => upsertBatch_nodup_keys cfg now1 L table hkeys⟩

/-- Witness for C6: the two-log fixture batch replayed twice over the empty
table. -/
theorem upsert_batch_idempotent_witness :
    ((batchFix.map inputKey).Nodup)
    ∧ ((upsertBatch cfgFix "t2" batchFix (upsertBatch cfgFix "t1" batchFix [])).map
          stripUpdatedAt
        = (upsertBatch cfgFix "t1" batchFix []).map stripUpdatedAt)
    ∧ ((([] : List ChainDeposit).map depositKey).Nodup →
        ((upsertBatch cfgFix "t1" batchFix []).map depositKey).Nodup) :=
  ⟨by decide,
    (upsert_batch_idempotent cfgFix "t1" "t2" batchFix [] (by decide)).1,
    (upsert_batch_idempotent cfgFix "t1" "t2" batchFix [] (by decide)).2⟩

/-- Witness for C9's amended statement: the row inserted at head `2^53 + 1`
for a block-1 transfer stays at or below the ceiling. -/
theorem conf_clamp_paths_witness :
    (freshDepositRow cfgFix (mkUpsertInput 1 (2 ^ 53 + 1)) "t1"
        ∈ upsertDeposit cfgFix (mkUpsertInput 1 (2 ^ 53 + 1)) "t1" [])
    ∧ (freshDepositRow cfgFix (mkUpsertInput 1 (2 ^ 53 + 1)) "t1" ∈ ([] : List ChainDeposit)
        ∨ (freshDepositRow cfgFix (mkUpsertInput 1 (2 ^ 53 + 1)) "t1").confirmations
            ≤ MAX_SAFE_INTEGER) :=
  ⟨by decide,
    (conf_clamp_paths cfgFix (mkUpsertInput 1 (2 ^ 53 + 1)) "t1" []).2.1 _ (by decide)⟩

theorem confirmationsBigInt_mono (H h blk : Nat) (hh : H ≤ h) :
    confirmationsBigInt H blk ≤ confirmationsBigInt h blk := by
  unfold confirmationsBigInt
  split <;> split <;> omega

theorem min_conf_clamp_iff (cfg : WorkerConfig)
    (hmin : cfg.minConfirmations ≤ (MAX_SAFE_INTEGER : Int)) (l b : Nat) :
    (cfg.minConfirmations ≤ (upsertConf l b : Int)
      ↔ cfg.minConfirmations ≤ (confirmationsBigInt l b : Int)) := by
  rw [upsertConf_eq_min, Nat.cast_min]
  omega

theorem refreshSelect_confirmed {h : Nat} {d : ChainDeposit} (hd : d.status = .confirmed) :
    refreshSelect h d = false := by
  unfold refreshSelect
  rw [hd]
  rfl

theorem refreshRowFn_confirmed (cfg : WorkerConfig) (h : Nat) (now : String)
    (d : ChainDeposit) (hd : d.status = .confirmed) :
    refreshRowFn cfg h now d = d := by
  unfold refreshRowFn
  rw [refreshSelect_confirmed hd]
  simp

theorem refreshRowFn_key_fields (cfg : WorkerConfig) (h : Nat) (now : String)
    (d : ChainDeposit) :
    (refreshRowFn cfg h now d).id = d.id
    ∧ depositKey (refreshRowFn cfg h now d) = depositKey d
    ∧ (refreshRowFn cfg h now d).blockNumber = d.blockNumber := by
  unfold refreshRowFn
  split
  · split
    · exact ⟨rfl, rfl, rfl⟩
    · exact ⟨rfl, rfl, rfl⟩
  · exact ⟨rfl, rfl, rfl⟩

/-- Under the scanner invariant the row ids are pairwise distinct. -/
theorem scanner_ids_nodup (cfg : WorkerConfig) (B : String × Nat → Nat)
    (KS : List (String × Nat)) (H : Nat) (table : List ChainDeposit)
    (hinj : KeyInjOn KS) (hinv : ScannerInv cfg B KS H table) :
    (table.map ChainDeposit.id).Nodup := by
  obtain ⟨hcanon, hkeys, hKS, _, _⟩ := hinv
  have h1 : table.map ChainDeposit.id = (table.map depositKey).map canonicalId := by
    rw [List.map_map]
    apply List.map_congr_left
    intro d hd
    simp only [Function.comp]
    exact hcanon d hd
  rw [h1]
  apply hkeys.map_on
  intro x hx y hy hxy
  rcases List.mem_map.mp hx with ⟨dx, hdx, rfl⟩
  rcases List.mem_map.mp hy with ⟨dy, hdy, rfl⟩
  exact hinj _ (hKS dx hdx) _ (hKS dy hdy) hxy

/-- One reconciliation sweep at a head `h ≥ H` preserves the scanner
invariant (now at `h`) and keeps every confirmed identity confirmed. -/
theorem refresh_step (cfg : WorkerConfig) (B : String × Nat → Nat)
    (KS : List (String × Nat)) (hinj : KeyInjOn KS) (H h : Nat) (now : String)
    (table : List ChainDeposit) (hH : H ≤ h) (hinv : ScannerInv cfg B KS H table)
    (k : String × Nat) (hkc : KeyConfirmedState k table) :
    ScannerInv cfg B KS h (refreshPendingConfirmations cfg h now table)
    ∧ KeyConfirmedState k (refreshPendingConfirmations cfg h now table) := by
  have hids := scanner_ids_nodup cfg B KS H table hinj hinv
  rw [refresh_eq_map cfg h now table hids]
  obtain ⟨hcanon, hkeys, hKS, hB, hconf⟩ := hinv
  refine ⟨⟨?_, ?_, ?_, ?_, ?_⟩, ?_, ?_⟩
  · intro d' hd'
    rcases List.mem_map.mp hd' with ⟨d, hd, rfl⟩
    rw [(refreshRowFn_key_fields cfg h now d).1, (refreshRowFn_key_fields cfg h now d).2.1]
    exact hcanon d hd
  · rw [List.map_map]
    have : table.map (depositKey ∘ refreshRowFn cfg h now) = table.map depositKey := by
      apply List.map_congr_left
      intro d _
      simp only [Function.comp]
      exact (refreshRowFn_key_fields cfg h now d).2.1
    rw [this]
    exact hkeys
  · intro d' hd'
    rcases List.mem_map.mp hd' with ⟨d, hd, rfl⟩
    rw [(refreshRowFn_key_fields cfg h now d).2.1]
    exact hKS d hd
  · intro d' hd'
    rcases List.mem_map.mp hd' with ⟨d, hd, rfl⟩
    rw [(refreshRowFn_key_fields cfg h now d).2.2, (refreshRowFn_key_fields cfg h now d).2.1]
    exact hB d hd
  · unfold ConfirmedHeadInv
    intro d' hd' hst
    rcases List.mem_map.mp hd' with ⟨d, hd, rfl⟩
    rw [(refreshRowFn_key_fields cfg h now d).2.2]
    by_cases hsel : refreshSelect h d = true
    · unfold refreshRowFn at hst
      rw [if_pos hsel] at hst
      by_cases hskip : refreshSkip cfg h d = true
      · rw [if_pos hskip] at hst
        exfalso
        have hpend : d.status = .pending := by
          unfold refreshSelect at hsel
          have := (Bool.and_eq_true _ _).mp hsel
          simpa using this.1
        rw [hpend] at hst
        simp at hst
      · rw [if_neg hskip] at hst
        have hge := (statusFor_eq_confirmed_iff cfg (refreshConf h d)).mp hst
        have hble : d.blockNumber ≤ h := by
          unfold refreshSelect at hsel
          have := (Bool.and_eq_true _ _).mp hsel
          simpa using this.2
        unfold confirmationsBigInt
        rw [if_pos hble]
        exact hge
    · have hfix : refreshRowFn cfg h now d = d := by
        unfold refreshRowFn
        rw [if_neg (by simp [hsel])]
      rw [hfix] at hst
      have hold := hconf d hd hst
      have hm := confirmationsBigInt_mono H h d.blockNumber hH
      omega
  · obtain ⟨⟨d, hd, hdk, hds⟩, _⟩ := hkc
    refine ⟨refreshRowFn cfg h now d, List.mem_map_of_mem _ hd, ?_, ?_⟩
    · rw [(refreshRowFn_key_fields cfg h now d).2.1]
      exact hdk
    · rw [refreshRowFn_confirmed cfg h now d hds]
      exact hds
  · intro d' hd' hk'
    rcases List.mem_map.mp hd' with ⟨d, hd, rfl⟩
    rw [(refreshRowFn_key_fields cfg h now d).2.1] at hk'
    have hds := hkc.2 d hd hk'
    rw [refreshRowFn_confirmed cfg h now d hds]
    exact hds


/-- One `upsertDeposit` at a head `h ≥ H`, for an identity from the key
universe carrying its fixed block number, preserves the scanner invariant
(now at `h`) and keeps every confirmed identity confirmed. -/
theorem upsert_step (cfg : WorkerConfig) (B : String × Nat → Nat)
    (KS : List (String × Nat)) (hmin : cfg.minConfirmations ≤ (MAX_SAFE_INTEGER : Int))
    (H : Nat) (i : UpsertInput) (now : String) (table : List ChainDeposit)
    (hH : H ≤ i.latestBlock) (hopB : i.blockNumber = B (inputKey i))
    (hopK : inputKey i ∈ KS) (hinv : ScannerInv cfg B KS H table)
    (k : String × Nat) (hkc : KeyConfirmedState k table) :
    ScannerInv cfg B KS i.latestBlock (upsertDeposit cfg i now table)
    ∧ KeyConfirmedState k (upsertDeposit cfg i now table) := by
  obtain ⟨hcanon, hkeys, hKS, hB, hconf⟩ := hinv
  unfold upsertDeposit
  by_cases hany : table.any (depositKeyEq i.txHash i.logIndex) = true
  · rw [if_pos hany]
    refine ⟨⟨?_, ?_, ?_, ?_, ?_⟩, ?_, ?_⟩
    · intro d' hd'
      rcases List.mem_map.mp hd' with ⟨d, hd, rfl⟩
      by_cases hk : depositKeyEq i.txHash i.logIndex d = true
      · rw [if_pos hk]
        exact hcanon d hd
      · rw [if_neg hk]
        exact hcanon d hd
    · rw [List.map_map]
      have heq : table.map (depositKey ∘ fun d =>
          if depositKeyEq i.txHash i.logIndex d then
            { d with
              confirmations := upsertConf i.latestBlock i.blockNumber
              status := statusFor cfg (upsertConf i.latestBlock i.blockNumber)
              updatedAt := now }
          else d) = table.map depositKey := by
        apply List.map_congr_left
        intro d _
        simp only [Function.comp]
        split <;> rfl
      rw [heq]
      exact hkeys
    · intro d' hd'
      rcases List.mem_map.mp hd' with ⟨d, hd, rfl⟩
      by_cases hk : depositKeyEq i.txHash i.logIndex d = true
      · rw [if_pos hk]
        exact hKS d hd
      · rw [if_neg hk]
        exact hKS d hd
    · intro d' hd'
      rcases List.mem_map.mp hd' with ⟨d, hd, rfl⟩
      by_cases hk : depositKeyEq i.txHash i.logIndex d = true
      · rw [if_pos hk]
        exact hB d hd
      · rw [if_neg hk]
        exact hB d hd
    · unfold ConfirmedHeadInv
      intro d' hd' hst
      rcases List.mem_map.mp hd' with ⟨d, hd, rfl⟩
      by_cases hk : depositKeyEq i.txHash i.logIndex d = true
      · rw [if_pos hk] at hst ⊢
        have hst' : statusFor cfg (upsertConf i.latestBlock i.blockNumber) = .confirmed := hst
        have hge := (statusFor_eq_confirmed_iff _ _).mp hst'
        have hkey : depositKey d = inputKey i := (depositKeyEq_iff _ _ _).mp hk
        have hblk : d.blockNumber = i.blockNumber := by
          rw [hB d hd, hkey, ← hopB]
        show cfg.minConfirmations ≤ (confirmationsBigInt i.latestBlock d.blockNumber : Int)
        rw [hblk]
        exact (min_conf_clamp_iff cfg hmin _ _).mp hge
      · rw [if_neg hk] at hst ⊢
        have hold := hconf d hd hst
        have hm := confirmationsBigInt_mono H i.latestBlock d.blockNumber hH
        omega
    · obtain ⟨⟨d, hd, hdk, hds⟩, hall⟩ := hkc
      by_cases hk : depositKeyEq i.txHash i.logIndex d = true
      · refine ⟨_, List.mem_map_of_mem _ hd, ?_⟩
        rw [if_pos hk]
        refine ⟨hdk, ?_⟩
        apply (statusFor_eq_confirmed_iff _ _).mpr
        apply (min_conf_clamp_iff cfg hmin _ _).mpr
        have hkey : depositKey d = inputKey i := (depositKeyEq_iff _ _ _).mp hk
        have hblk : d.blockNumber = i.blockNumber := by
          rw [hB d hd, hkey, ← hopB]
        have hold := hconf d hd hds
        have hm := confirmationsBigInt_mono H i.latestBlock d.blockNumber hH
        rw [← hblk]
        omega
      · refine ⟨_, List.mem_map_of_mem _ hd, ?_⟩
        rw [if_neg hk]
        exact ⟨hdk, hds⟩
    · intro d' hd' hk'
      rcases List.mem_map.mp hd' with ⟨e, he, rfl⟩
      by_cases hk : depositKeyEq i.txHash i.logIndex e = true
      · rw [if_pos hk] at hk' ⊢
        have hk2 : depositKey e = k := hk'
        have hes := hkc.2 e he hk2
        apply (statusFor_eq_confirmed_iff _ _).mpr
        apply (min_conf_clamp_iff cfg hmin _ _).mpr
        have hkey : depositKey e = inputKey i := (depositKeyEq_iff _ _ _).mp hk
        have hblk : e.blockNumber = i.blockNumber := by
          rw [hB e he, hkey, ← hopB]
        have hold := hconf e he hes
        have hm := confirmationsBigInt_mono H i.latestBlock e.blockNumber hH
        rw [← hblk]
        omega
      · rw [if_neg hk] at hk' ⊢
        exact hkc.2 e he hk'
  · rw [if_neg hany]
    have hnot : ∀ d ∈ table, ¬ depositKeyEq i.txHash i.logIndex d = true := by
      intro d hd
      simpa using (List.any_eq_false.mp (by simpa using hany)) d hd
    refine ⟨⟨?_, ?_, ?_, ?_, ?_⟩, ?_, ?_⟩
    · intro d' hd'
      rcases List.mem_append.mp hd' with hd | hd
      · exact hcanon d' hd
      · rw [List.mem_singleton.mp hd]
        rfl
    · rw [List.map_append]
      apply List.Nodup.append hkeys (by simp)
      intro a ha hb
      rcases List.mem_map.mp ha with ⟨d, hd, rfl⟩
      have hbb : depositKey d = depositKey (freshDepositRow cfg i now) := by
        simpa using hb
      have hdk : depositKey d = (i.txHash, i.logIndex) := hbb
      exact hnot d hd ((depositKeyEq_iff _ _ _).mpr hdk)
    · intro d' hd'
      rcases List.mem_append.mp hd' with hd | hd
      · exact hKS d' hd
      · rw [List.mem_singleton.mp hd]
        exact hopK
    · intro d' hd'
      rcases List.mem_append.mp hd' with hd | hd
      · exact hB d' hd
      · rw [List.mem_singleton.mp hd]
        exact hopB
    · unfold ConfirmedHeadInv
      intro d' hd' hst
      rcases List.mem_append.mp hd' with hd | hd
      · have hold := hconf d' hd hst
        have hm := confirmationsBigInt_mono H i.latestBlock d'.blockNumber hH
        omega
      · rw [List.mem_singleton.mp hd] at hst ⊢
        have hst' : statusFor cfg (upsertConf i.latestBlock i.blockNumber) = .confirmed := hst
        have hge := (statusFor_eq_confirmed_iff _ _).mp hst'
        exact (min_conf_clamp_iff cfg hmin _ _).mp hge
    · obtain ⟨⟨d, hd, hdk, hds⟩, _⟩ := hkc
      exact ⟨d, List.mem_append_left _ hd, hdk, hds⟩
    · intro d' hd' hk'
      rcases List.mem_append.mp hd' with hd | hd
      · exact hkc.2 d' hd hk'
      · exfalso
        rw [List.mem_singleton.mp hd] at hk'
        obtain ⟨⟨d, hd2, hdk, _⟩, _⟩ := hkc
        apply hnot d hd2
        apply (depositKeyEq_iff _ _ _).mpr
        rw [hdk, ← hk']
        rfl


/-- C5 amended: once a `(txHash, logIndex)` identity is confirmed it stays
confirmed along any sequence of `upsertDeposit` and
`refreshPendingConfirmations` operations whose supplied heads never
decrease and whose upsert arguments carry each identity's fixed block
number (re-observing a log at a lower head, by contrast, reverts the
record — see the counterexample). -/
theorem confirmed_stays_confirmed (cfg : WorkerConfig) (B : String × Nat → Nat)
    (KS : List (String × Nat)) (hinj : KeyInjOn KS)
    (hmin : cfg.minConfirmations ≤ (MAX_SAFE_INTEGER : Int)) :
    ∀ (ops : List ChainOp) (H : Nat) (table : List ChainDeposit),
      HeadsMono H ops →
      (∀ op ∈ ops, op.blockConsistent B ∧ op.keyIn KS) →
      ScannerInv cfg B KS H table →
      ∀ k : String × Nat, KeyConfirmedState k table →
        KeyConfirmedState k (applyChainOps cfg table ops) := by
  intro ops
  induction ops with
  | nil =>
    intro H table _ _ _ k hkc
    exact hkc
  | cons op t ih =>
    intro H table hmono hok hinv k hkc
    obtain ⟨hH, hmono'⟩ := hmono
    have hstep : ScannerInv cfg B KS op.head (applyChainOp cfg table op)
        ∧ KeyConfirmedState k (applyChainOp cfg table op) := by
      cases op with
      | upsert i now =>
        exact upsert_step cfg B KS hmin H i now table hH
          ((hok _ (List.mem_cons_self _ _)).1) ((hok _ (List.mem_cons_self _ _)).2) hinv k hkc
      | refresh h now =>
        exact refresh_step cfg B KS hinj H h now table hH hinv k hkc
    exact ih op.head (applyChainOp cfg table op) hmono'
      (fun x hx => hok x (List.mem_cons_of_mem op hx)) hstep.1 k hstep.2

/-- Witness for C5's amended statement: the confirmed fixture row stays
confirmed through a sweep at head 110 and a re-upsert at head 120. -/
theorem confirmed_stays_confirmed_witness :
    ScannerInv cfgFix bFix ksFix 100 confirmedTableFix
    ∧ KeyConfirmedState ("0xabc", 0) confirmedTableFix
    ∧ HeadsMono 100 opsFix
    ∧ KeyConfirmedState ("0xabc", 0) (applyChainOps cfgFix confirmedTableFix opsFix) := by
  have hinv : ScannerInv cfgFix bFix ksFix 100 confirmedTableFix :=
    ⟨by decide, by decide, by decide, by decide, by unfold ConfirmedHeadInv; decide⟩
  have hkc : KeyConfirmedState ("0xabc", 0) confirmedTableFix := ⟨by decide, by decide⟩
  have hmono : HeadsMono 100 opsFix := ⟨by decide, by decide, trivial⟩
  have hok : ∀ op ∈ opsFix, op.blockConsistent bFix ∧ op.keyIn ksFix := by
    intro op hop
    rcases List.mem_cons.mp hop with rfl | hop
    · exact ⟨trivial, trivial⟩
    rcases List.mem_cons.mp hop with rfl | hop
    · exact ⟨rfl, List.mem_singleton.mpr rfl⟩
    · exact absurd hop (List.not_mem_nil _)
  exact ⟨hinv, hkc, hmono,
    confirmed_stays_confirmed cfgFix bFix ksFix (by unfold KeyInjOn; decide) (by decide)
      opsFix 100 confirmedTableFix hmono hok hinv ("0xabc", 0) hkc⟩

theorem applyWrites_append (s : WorkerState) (l1 l2 : List (WorkerState → WorkerState)) :
    applyWrites s (l1 ++ l2) = applyWrites (applyWrites s l1) l2 :=
  List.foldl_append _ _ _ _

/-- Deposit-table writes never touch the cursor. -/
theorem applyWrites_liftDep (fs : List (List ChainDeposit → List ChainDeposit)) :
    ∀ s : WorkerState, applyWrites s (fs.map liftDep)
      = { s with deposits := fs.foldl (fun t f => f t) s.deposits } := by
  induction fs with
  | nil =>
    intro s
    rfl
  | cons f fs ih =>
    intro s
    show applyWrites (liftDep f s) (fs.map liftDep) = _
    rw [ih]
    rfl

/-- The per-log upsert writes amount to one `upsertBatch` on the deposit
table. -/
theorem upsertOps_applyWrites (cfg : WorkerConfig) (now : String)
    (inputs : List UpsertInput) (s : WorkerState) :
    applyWrites s (inputs.map fun i => liftDep (upsertDeposit cfg i now))
      = { s with deposits := upsertBatch cfg now inputs s.deposits } := by
  have h1 : (inputs.map fun i => liftDep (upsertDeposit cfg i now))
      = (inputs.map fun i => upsertDeposit cfg i now).map liftDep := by
    rw [List.map_map]
    rfl
  rw [h1, applyWrites_liftDep]
  unfold upsertBatch
  rw [List.foldl_map]

/-- A row update by id never changes which identities are present. -/
theorem updateDepositById_any (rid : String) (c : Nat) (st : DepositStatus)
    (now tx : String) (idx : Nat) (t : List ChainDeposit) :
    (updateDepositById rid c st now t).any (depositKeyEq tx idx)
      = t.any (depositKeyEq tx idx) := by
  unfold updateDepositById
  rw [List.any_map]
  congr 1
  funext d
  simp only [Function.comp]
  split <;> rfl

/-- An upsert never removes an identity. -/
theorem upsert_any_mono (cfg : WorkerConfig) (j : UpsertInput) (now tx : String)
    (idx : Nat) (t : List ChainDeposit) (h : t.any (depositKeyEq tx idx) = true) :
    (upsertDeposit cfg j now t).any (depositKeyEq tx idx) = true := by
  unfold upsertDeposit
  rcases List.any_eq_true.mp h with ⟨d, hd, hkd⟩
  by_cases hany : t.any (depositKeyEq j.txHash j.logIndex) = true
  · rw [if_pos hany, List.any_map]
    apply List.any_eq_true.mpr
    refine ⟨d, hd, ?_⟩
    simp only [Function.comp]
    split
    · exact hkd
    · exact hkd
  · rw [if_neg hany]
    exact List.any_eq_true.mpr ⟨d, List.mem_append_left _ hd, hkd⟩

/-- A batch of upserts never removes an identity. -/
theorem upsertBatch_any_mono (cfg : WorkerConfig) (now tx : String) (idx : Nat) :
    ∀ (L : List UpsertInput) (t : List ChainDeposit),
      t.any (depositKeyEq tx idx) = true →
      (upsertBatch cfg now L t).any (depositKeyEq tx idx) = true := by
  intro L
  induction L with
  | nil =>
    intro t h
    exact h
  | cons j L' ih =>
    intro t h
    exact ih _ (upsert_any_mono cfg j now tx idx t h)

/-- After a batch every scanned log's identity has a recorded row. -/
theorem upsertBatch_presence (cfg : WorkerConfig) (now : String) :
    ∀ (L : List UpsertInput) (t : List ChainDeposit), ∀ i ∈ L,
      (upsertBatch cfg now L t).any (depositKeyEq i.txHash i.logIndex) = true := by
  intro L
  induction L with
  | nil =>
    intro t i hi
    exact absurd hi (List.not_mem_nil i)
  | cons j L' ih =>
    intro t i hi
    rcases List.mem_cons.mp hi with rfl | hi'
    · show (upsertBatch cfg now L' (upsertDeposit cfg i now t)).any _ = true
      exact upsertBatch_any_mono cfg now i.txHash i.logIndex L' _
        (upsert_establishes cfg i now t).1
    · exact ih _ i hi'

/-- Every write a sweep issues is an update-by-id. -/
theorem refreshRowOps_shape (cfg : WorkerConfig) (lb : Nat) (now : String)
    (tbl : List ChainDeposit) :
    ∀ f ∈ refreshRowOps cfg lb now tbl,
      ∃ rid c st now0, f = updateDepositById rid c st now0 := by
  intro f hf
  unfold refreshRowOps at hf
  rcases List.mem_filterMap.mp hf with ⟨d, _, hfd⟩
  by_cases hskip : refreshSkip cfg lb d = true
  · rw [if_pos hskip] at hfd
    cases hfd
  · rw [if_neg hskip] at hfd
    exact ⟨d.id, _, _, now, (Option.some_inj.mp hfd).symm⟩

/-- Update-by-id writes keep every recorded identity recorded. -/
theorem foldl_updates_any (tx : String) (idx : Nat) :
    ∀ (ops : List (List ChainDeposit → List ChainDeposit)),
      (∀ f ∈ ops, ∃ rid c st now0, f = updateDepositById rid c st now0) →
      ∀ t : List ChainDeposit, t.any (depositKeyEq tx idx) = true →
        (ops.foldl (fun acc g => g acc) t).any (depositKeyEq tx idx) = true := by
  intro ops
  induction ops with
  | nil =>
    intro _ t h
    exact h
  | cons f fs ih =>
    intro hshape t h
    show (fs.foldl (fun acc g => g acc) (f t)).any (depositKeyEq tx idx) = true
    apply ih (fun g hg => hshape g (List.mem_cons_of_mem f hg))
    rcases hshape f (List.mem_cons_self f fs) with ⟨rid, c, st, now0, rfl⟩
    rw [updateDepositById_any]
    exact h

theorem applyWrites_cons (s : WorkerState) (f : WorkerState → WorkerState)
    (l : List (WorkerState → WorkerState)) :
    applyWrites s (f :: l) = applyWrites (f s) l :=
  rfl

/-- C4 amended: across any prefix of one poll cycle's durable writes the
stored cursor never decreases, and it either still holds its pre-cycle
value or has been set to the scanned head — the latter only after every
transfer log of the scan range has a recorded deposit row.  A failure
inside the reconciliation sweep (after the cursor write) therefore leaves
the cursor advanced to the head rather than unchanged.  A successful
`pollOnce` is exactly the full prefix of writes. -/
theorem poll_cycle_cursor (cfg : WorkerConfig) (tokens : List TrackedToken) (rpc : RpcView)
    (now : String) (s : WorkerState) (k : Nat) :
    pollCycleConcl cfg tokens rpc now s k
    ∧ pollOnce cfg tokens rpc now s
        = pollOnceUpTo cfg tokens rpc now s (pollOnceWrites cfg tokens rpc now s).length := by
  constructor
  swap
  · unfold pollOnce pollOnceUpTo
    rw [List.take_length]
  unfold pollCycleConcl pollOnceUpTo
  simp only [pollOnceWrites]
  by_cases hbr : rpc.latestBlock < resolveFromBlock cfg rpc.latestBlock s.cursor
  · rw [if_pos hbr, ← List.map_take, applyWrites_liftDep]
    constructor
    · exact fun x hx => ⟨x, hx, Nat.le_refl x⟩
    · left
      rfl
  · rw [if_neg hbr]
    set fb := resolveFromBlock cfg rpc.latestBlock s.cursor with hfb
    set inputs := scanInputs tokens rpc fb with hinp
    set A := inputs.map (fun i => liftDep (upsertDeposit cfg i now)) with hA
    set R := (refreshRowOps cfg rpc.latestBlock now
      (upsertBatch cfg now inputs s.deposits)).map liftDep with hRdef
    rw [List.append_assoc, List.singleton_append]
    by_cases hk : k ≤ A.length
    · rw [List.take_append_of_le_length hk]
      have hAk : A.take k = ((inputs.take k).map fun i => upsertDeposit cfg i now).map liftDep := by
        rw [hA, ← List.map_take, List.map_map]
        rfl
      rw [hAk, applyWrites_liftDep]
      constructor
      · exact fun x hx => ⟨x, hx, Nat.le_refl x⟩
      · left
        rfl
    · push_neg at hk
      obtain ⟨m, rfl⟩ : ∃ m, k = A.length + (m + 1) := ⟨k - A.length - 1, by omega⟩
      rw [List.take_append (m + 1), List.take_succ_cons, applyWrites_append]
      have hAw : applyWrites s A
          = { s with deposits := upsertBatch cfg now inputs s.deposits } := by
        rw [hA]
        exact upsertOps_applyWrites cfg now inputs s
      rw [hAw, applyWrites_cons]
      have hRtake : R.take m = ((refreshRowOps cfg rpc.latestBlock now
          (upsertBatch cfg now inputs s.deposits)).take m).map liftDep := by
        rw [hRdef, ← List.map_take]
      rw [hRtake, applyWrites_liftDep]
      constructor
      · intro x hx
        refine ⟨rpc.latestBlock, rfl, ?_⟩
        have hfbx : fb = x + 1 := by
          rw [hfb, hx]
          rfl
        omega
      · right
        refine ⟨rfl, ?_⟩
        intro i hi
        apply foldl_updates_any
        · intro f hf
          exact refreshRowOps_shape cfg rpc.latestBlock now _ f (List.take_subset m _ hf)
        · exact upsertBatch_presence cfg now inputs s.deposits i hi

/-- C4 counterexample: a cycle that fails during the reconciliation sweep
has already written the cursor.  With head 20, cursor 10 and one pending
deposit, the second durable write is still outstanding after write 1 (so
the cycle can still throw and be caught by `runPollCycle`), yet the cursor
has already moved from 10 to 20. -/
theorem cursor_advances_in_failed_cycle_cex :
    wsFix.cursor = some 10
    ∧ (pollOnceUpTo cfgFix [tokFix] rpcFix "t9" wsFix 1).cursor = some 20
    ∧ 1 < (pollOnceWrites cfgFix [tokFix] rpcFix "t9" wsFix).length
    ∧ some (20 : Nat) ≠ some (10 : Nat) := by
  decide

/-- Witness for C4's amended statement at the fixture cycle. -/
theorem poll_cycle_cursor_witness :
    pollCycleConcl cfgFix [tokFix] rpcFix "t9" wsFix 1
    ∧ pollOnce cfgFix [tokFix] rpcFix "t9" wsFix
        = pollOnceUpTo cfgFix [tokFix] rpcFix "t9" wsFix
            (pollOnceWrites cfgFix [tokFix] rpcFix "t9" wsFix).length :=
  poll_cycle_cursor cfgFix [tokFix] rpcFix "t9" wsFix 1

end AiVideoEngine
